import Mathlib

/-!
Verification development for the raytracer.js spatial engine.

The TypeScript sources are shallowly embedded:
* dimension-generic vector math (src/math/vector.ts) over real vectors
  `Fin k → ℝ`;
* JavaScript numbers are modelled exactly: `Frc` is a kernel-computable
  fraction type (integer numerator, positive integer denominator) with
  an interpretation `Frc.toQ` into ℚ, and `JNum` extends it with the
  IEEE specials (signed infinities, NaN) produced by division by zero.
  Every concrete input used below is exactly representable in binary
  floating point, so this exact model agrees with the float semantics of
  the source on every operation performed;
* the octree (src/octree.ts, src/octree_space.ts and the octree entity
  integration) is modelled as a heap of nodes addressed by their path
  from the absolute root, mirroring the parent/children object graph of
  parent-linked trees;
* the ray tracer hit-processing step (src/raytracer.ts) over real
  three-dimensional vectors.
-/

namespace VecR

/-- Dimension-generic real vectors modelling the `{v: number[]}` vectors
of src/math/vector.ts; fixing the index type enforces the
assert_compatibility dimension checks of the source. -/
def Vec (k : Nat) := Fin k → ℝ

def add {k : Nat} (a b : Vec k) : Vec k := fun i => a i + b i

def sub {k : Nat} (a b : Vec k) : Vec k := fun i => a i - b i

def scale {k : Nat} (a : Vec k) (s : ℝ) : Vec k := fun i => a i * s

def dot {k : Nat} (a b : Vec k) : ℝ := ∑ i, a i * b i

/-- Translation of vector.ts `reflection(v, normal)`:
`norm_scale = -dot(v, normal); return add(v, scale(normal, norm_scale * 2))`. -/
def reflection {k : Nat} (v normal : Vec k) : Vec k :=
  add v (scale normal (-dot v normal * 2))

theorem dot_add_scale {k : Nat} (v n : Vec k) (c : ℝ) :
    dot (add v (scale n c)) n = dot v n + c * dot n n := by
  unfold dot add scale
  rw [Finset.mul_sum, ← Finset.sum_add_distrib]
  refine Finset.sum_congr rfl fun i _ => by ring

end VecR

/-- Kernel-computable exact fractions: numerator over a positive
denominator.  Mathlib's ℚ is not kernel-reducible (its normalisation
uses well-founded gcd), so the embedded code computes on `Frc` and the
mathematical statements speak about `Frc.toQ`. -/
structure Frc where
  num : Int
  den : Int
  dpos : 0 < den

namespace Frc

def toQ (a : Frc) : ℚ := (a.num : ℚ) / (a.den : ℚ)

def ofInt (n : Int) : Frc := ⟨n, 1, one_pos⟩

def add (a b : Frc) : Frc :=
  ⟨a.num * b.den + b.num * a.den, a.den * b.den, mul_pos a.dpos b.dpos⟩

def neg (a : Frc) : Frc := ⟨-a.num, a.den, a.dpos⟩

def sub (a b : Frc) : Frc := add a (neg b)

def mul (a b : Frc) : Frc := ⟨a.num * b.num, a.den * b.den, mul_pos a.dpos b.dpos⟩

/-- Exact division; the JS special cases for a zero divisor are handled
in `JNum.div` before this is reached, so the zero-divisor branch here is
arbitrary (it returns 0). -/
def div (a b : Frc) : Frc :=
  if h : b.num = 0 then ofInt 0
  else if hp : 0 < b.num then
    ⟨a.num * b.den, a.den * b.num, mul_pos a.dpos hp⟩
  else
    ⟨-(a.num * b.den), a.den * -b.num, mul_pos a.dpos (by omega)⟩

def blt (a b : Frc) : Bool := a.num * b.den < b.num * a.den

def ble (a b : Frc) : Bool := a.num * b.den ≤ b.num * a.den

def beq (a b : Frc) : Bool := a.num * b.den = b.num * a.den

/-- Math.floor. -/
def floor (a : Frc) : Int := a.num.fdiv a.den

/-- Truncation toward zero (the `<< 0` coercion on the in-range values
handled by the embedded code). -/
def trunc (a : Frc) : Int := a.num.tdiv a.den

theorem toQ_ofInt (n : Int) : (ofInt n).toQ = (n : ℚ) := by
  simp [ofInt, toQ]

theorem den_q_pos (a : Frc) : (0 : ℚ) < (a.den : ℚ) := by
  exact_mod_cast a.dpos

theorem den_q_ne (a : Frc) : (a.den : ℚ) ≠ 0 := ne_of_gt a.den_q_pos

theorem toQ_add (a b : Frc) : (add a b).toQ = a.toQ + b.toQ := by
  unfold add toQ
  push_cast
  rw [div_add_div _ _ a.den_q_ne b.den_q_ne]
  ring_nf

theorem toQ_neg (a : Frc) : (neg a).toQ = -a.toQ := by
  unfold neg toQ
  push_cast
  ring

theorem toQ_sub (a b : Frc) : (sub a b).toQ = a.toQ - b.toQ := by
  unfold sub
  rw [toQ_add, toQ_neg]
  ring

theorem toQ_mul (a b : Frc) : (mul a b).toQ = a.toQ * b.toQ := by
  unfold mul toQ
  field_simp

theorem toQ_eq_zero_iff (a : Frc) : a.toQ = 0 ↔ a.num = 0 := by
  unfold toQ
  rw [div_eq_zero_iff]
  constructor
  · rintro (h | h)
    · exact_mod_cast h
    · exact absurd h a.den_q_ne
  · intro h
    exact Or.inl (by exact_mod_cast h)

theorem toQ_div (a b : Frc) (hb : b.toQ ≠ 0) : (div a b).toQ = a.toQ / b.toQ := by
  have hnum : b.num ≠ 0 := fun h => hb ((toQ_eq_zero_iff b).2 h)
  unfold div
  rw [dif_neg hnum]
  rcases lt_or_gt_of_ne hnum with hneg | hpos
  · rw [dif_neg (by omega)]
    unfold toQ
    field_simp
  · rw [dif_pos hpos]
    unfold toQ
    field_simp

theorem blt_iff (a b : Frc) : blt a b = true ↔ a.toQ < b.toQ := by
  unfold blt toQ
  rw [div_lt_div_iff₀ a.den_q_pos b.den_q_pos]
  rw [decide_eq_true_eq]
  constructor
  · intro h
    exact_mod_cast h
  · intro h
    exact_mod_cast h

theorem ble_iff (a b : Frc) : ble a b = true ↔ a.toQ ≤ b.toQ := by
  unfold ble toQ
  rw [div_le_div_iff₀ a.den_q_pos b.den_q_pos]
  rw [decide_eq_true_eq]
  constructor
  · intro h
    exact_mod_cast h
  · intro h
    exact_mod_cast h

theorem beq_iff (a b : Frc) : beq a b = true ↔ a.toQ = b.toQ := by
  unfold beq toQ
  rw [div_eq_div_iff a.den_q_ne b.den_q_ne]
  rw [decide_eq_true_eq]
  constructor
  · intro h
    exact_mod_cast h
  · intro h
    exact_mod_cast h

theorem toQ_eq_of (a : Frc) (n d : Int) (h1 : a.num = n) (h2 : a.den = d)
    (h3 : (n : ℚ) / (d : ℚ) = q) : a.toQ = q := by
  rw [toQ, h1, h2, h3]

theorem floor_eq (a : Frc) : a.floor = ⌊a.toQ⌋ := by
  unfold floor toQ
  rw [Int.fdiv_eq_ediv _ (le_of_lt a.dpos)]
  obtain ⟨n, hn⟩ : ∃ n : ℕ, a.den = (n : ℤ) := ⟨a.den.toNat, by have := a.dpos; omega⟩
  rw [hn]
  push_cast
  exact (Rat.floor_intCast_div_natCast a.num n).symm

end Frc

/-- A JS number: an exact finite value or one of the IEEE specials. -/
inductive JNum where
  | fin (q : Frc)
  | pinf
  | minf
  | nan

namespace JNum

def ofInt (n : Int) : JNum := .fin (Frc.ofInt n)

def neg : JNum → JNum
  | .fin q => .fin q.neg
  | .pinf => .minf
  | .minf => .pinf
  | .nan => .nan

def add : JNum → JNum → JNum
  | .nan, _ => .nan
  | _, .nan => .nan
  | .fin a, .fin b => .fin (a.add b)
  | .fin _, b => b
  | a, .fin _ => a
  | .pinf, .pinf => .pinf
  | .minf, .minf => .minf
  | .pinf, .minf => .nan
  | .minf, .pinf => .nan

def sub (a b : JNum) : JNum := add a (neg b)

/-- Sign of a JS number for the multiplication/division rules; 0 only
for finite zero. -/
def sgn : JNum → Int
  | .fin q => if q.num > 0 then 1 else if q.num < 0 then -1 else 0
  | .pinf => 1
  | .minf => -1
  | .nan => 0

def mul : JNum → JNum → JNum
  | .nan, _ => .nan
  | _, .nan => .nan
  | .fin a, .fin b => .fin (a.mul b)
  | a, b =>
    -- at least one infinite operand
    if sgn a = 0 ∨ sgn b = 0 then .nan
    else if sgn a * sgn b = 1 then .pinf else .minf

def div : JNum → JNum → JNum
  | .nan, _ => .nan
  | _, .nan => .nan
  | .fin a, .fin b =>
    if b.num = 0 then
      if a.num = 0 then .nan else if a.num > 0 then .pinf else .minf
    else .fin (a.div b)
  | .fin _, _ => .fin (Frc.ofInt 0)
  | a, .fin b =>
    -- a infinite; JS zero denominators are +0 here
    if (sgn a = 1) = (b.num ≥ 0) then .pinf else .minf
  | _, _ => .nan

/-- JS `<`: false whenever an operand is NaN. -/
def lt : JNum → JNum → Bool
  | .nan, _ => false
  | _, .nan => false
  | .fin a, .fin b => a.blt b
  | .minf, .minf => false
  | .minf, _ => true
  | _, .minf => false
  | .pinf, _ => false
  | .fin _, .pinf => true

/-- JS `>=`: false whenever an operand is NaN. -/
def ge (a b : JNum) : Bool :=
  match a, b with
  | .nan, _ => false
  | _, .nan => false
  | _, _ => !(lt a b)

def gt (a b : JNum) : Bool := lt b a

/-- JS `==` against the literal 0. -/
def eqZero : JNum → Bool
  | .fin q => q.num = 0
  | _ => false

/-- The `<< 0` truncating coercion on the values handled by the
embedded code (NaN and infinities coerce to 0). -/
def toIntJs : JNum → Int
  | .fin q => q.trunc
  | _ => 0

end JNum

/-- Three-dimensional JS-number vectors used by the walker internals. -/
structure JVec where
  x : JNum
  y : JNum
  z : JNum

namespace JVec

def add (a b : JVec) : JVec := ⟨JNum.add a.x b.x, JNum.add a.y b.y, JNum.add a.z b.z⟩

def sub (a b : JVec) : JVec := ⟨JNum.sub a.x b.x, JNum.sub a.y b.y, JNum.sub a.z b.z⟩

def scale (a : JVec) (s : JNum) : JVec := ⟨JNum.mul a.x s, JNum.mul a.y s, JNum.mul a.z s⟩

def dot (a b : JVec) : JNum :=
  JNum.add (JNum.add (JNum.mul a.x b.x) (JNum.mul a.y b.y)) (JNum.mul a.z b.z)

def nth (a : JVec) : Nat → JNum
  | 0 => a.x
  | 1 => a.y
  | _ => a.z

end JVec

/-- Exact finite 3-vectors (used where the embedded code never divides
by zero, hence stays finite). -/
structure FVec where
  x : Frc
  y : Frc
  z : Frc

namespace FVec

def add (a b : FVec) : FVec := ⟨a.x.add b.x, a.y.add b.y, a.z.add b.z⟩

def sub (a b : FVec) : FVec := ⟨a.x.sub b.x, a.y.sub b.y, a.z.sub b.z⟩

def scale (a : FVec) (s : Frc) : FVec := ⟨a.x.mul s, a.y.mul s, a.z.mul s⟩

def dot (a b : FVec) : Frc :=
  ((a.x.mul b.x).add (a.y.mul b.y)).add (a.z.mul b.z)

def toJ (a : FVec) : JVec := ⟨.fin a.x, .fin a.y, .fin a.z⟩

def nth (a : FVec) : Nat → Frc
  | 0 => a.x
  | 1 => a.y
  | _ => a.z

def ofInts (a b c : Int) : FVec := ⟨.ofInt a, .ofInt b, .ofInt c⟩

end FVec

/-- Intersection direction selector of src/math/intersection.ts. -/
inductive IntersectionDirection where
  | both
  | forward
  | backward
deriving DecidableEq

/-- Flags record of src/math/intersection.ts (the optional
`intersection_direction` defaults to BOTH at the use sites below). -/
structure IntersectionFlags where
  allow_infinity : Bool := false
  intersection_direction : IntersectionDirection := .both

/-- Translation of `Plane.line_intersection` from
src/math/intersection.ts, for a plane with stored `normal` and `pos` and
the line `{start, dir}`.  The FORWARD case of the source switch has no
`break` and falls through into the BACKWARD filter; the translation
reproduces that fall-through. -/
def line_intersection (normal pos lineStart lineDir : JVec)
    (flags : IntersectionFlags) : List (JVec × JVec) :=
  let denom := JVec.dot lineDir normal
  if denom.eqZero ∧ ¬flags.allow_infinity then []
  else
    let tmp_vec := JVec.sub pos lineStart
    let t := JNum.div (JVec.dot tmp_vec normal) denom
    let keep : Bool :=
      match flags.intersection_direction with
      | .both => true
      | .forward => !(JNum.lt t (.fin (Frc.ofInt 0))) && !(JNum.gt t (.fin (Frc.ofInt 0)))
      | .backward => !(JNum.gt t (.fin (Frc.ofInt 0)))
    if keep then [(JVec.add lineStart (JVec.scale lineDir t), normal)]
    else []

/-- C9: the vector reflection operation of src/math/vector.ts returns
`v − 2·(v·n)·n`, and for a unit normal `n` it is an involution:
reflecting twice with the same normal gives back the original vector,
exactly, over real arithmetic. -/
theorem reflection_formula_and_involution {k : Nat} (v n : VecR.Vec k) :
    (∀ i, VecR.reflection v n i = v i - 2 * VecR.dot v n * n i) ∧
    (VecR.dot n n = 1 → VecR.reflection (VecR.reflection v n) n = v) := by
  constructor
  · intro i
    unfold VecR.reflection VecR.add VecR.scale
    ring
  · intro hunit
    have hdot : VecR.dot (VecR.reflection v n) n = -VecR.dot v n := by
      unfold VecR.reflection
      rw [VecR.dot_add_scale, hunit]
      ring
    funext i
    have h1 : VecR.reflection (VecR.reflection v n) n i
        = VecR.reflection v n i + n i * (-VecR.dot (VecR.reflection v n) n * 2) := rfl
    have h2 : VecR.reflection v n i = v i + n i * (-VecR.dot v n * 2) := rfl
    rw [h1, hdot, h2]
    ring

/-- Witness for reflection_formula_and_involution at v = (1,2,3),
n = (1,0,0): the unit-normal hypothesis is discharged concretely. -/
theorem reflection_formula_and_involution_witness :
    VecR.dot (fun i : Fin 3 => if i.val = 0 then (1 : ℝ) else 0)
        (fun i : Fin 3 => if i.val = 0 then (1 : ℝ) else 0) = 1 ∧
    VecR.reflection
        (VecR.reflection (fun i : Fin 3 => (i.val : ℝ) + 1)
          (fun i : Fin 3 => if i.val = 0 then (1 : ℝ) else 0))
        (fun i : Fin 3 => if i.val = 0 then (1 : ℝ) else 0)
      = (fun i : Fin 3 => (i.val : ℝ) + 1) := by
  have hunit : VecR.dot (fun i : Fin 3 => if i.val = 0 then (1 : ℝ) else 0)
      (fun i : Fin 3 => if i.val = 0 then (1 : ℝ) else 0) = 1 := by
    unfold VecR.dot
    rw [Fin.sum_univ_three]
    norm_num
  exact ⟨hunit,
    (reflection_formula_and_involution (fun i : Fin 3 => (i.val : ℝ) + 1)
      (fun i : Fin 3 => if i.val = 0 then (1 : ℝ) else 0)).2 hunit⟩

theorem dot_toJ (a b : FVec) : JVec.dot a.toJ b.toJ = .fin (FVec.dot a b) := rfl

theorem sub_toJ (a b : FVec) : JVec.sub a.toJ b.toJ = (FVec.sub a b).toJ := rfl

/-- C10: with intersection_direction = FORWARD, Plane.line_intersection
returns a hit exactly when the signed parameter t of the intersection is
0; both strictly negative and strictly positive t yield the empty list,
because the FORWARD case of the switch falls through into the backward
filter.  Stated over exact finite planes and lines with dir·normal ≠ 0;
t is the ratio dot(pos − start, normal) / dot(dir, normal) of the
source. -/
theorem C10_forward_returns_only_t_zero (n pos s d : FVec)
    (hden : (FVec.dot d n).toQ ≠ 0) :
    (line_intersection n.toJ pos.toJ s.toJ d.toJ
        { allow_infinity := false, intersection_direction := .forward } ≠ []
      ↔ (FVec.dot (FVec.sub pos s) n).toQ / (FVec.dot d n).toQ = 0) ∧
    (0 < (FVec.dot (FVec.sub pos s) n).toQ / (FVec.dot d n).toQ →
      line_intersection n.toJ pos.toJ s.toJ d.toJ
        { allow_infinity := false, intersection_direction := .forward } = []) ∧
    ((FVec.dot (FVec.sub pos s) n).toQ / (FVec.dot d n).toQ < 0 →
      line_intersection n.toJ pos.toJ s.toJ d.toJ
        { allow_infinity := false, intersection_direction := .forward } = []) := by
  have hnum : (FVec.dot d n).num ≠ 0 := fun h => hden ((Frc.toQ_eq_zero_iff _).2 h)
  have hne : JNum.eqZero (JVec.dot d.toJ n.toJ) = false := by
    rw [dot_toJ]
    simp [JNum.eqZero, hnum]
  have hdivq : ((FVec.dot (FVec.sub pos s) n).div (FVec.dot d n)).toQ
      = (FVec.dot (FVec.sub pos s) n).toQ / (FVec.dot d n).toQ :=
    Frc.toQ_div _ _ hden
  have hkey : line_intersection n.toJ pos.toJ s.toJ d.toJ
      { allow_infinity := false, intersection_direction := .forward }
      = if ((FVec.dot (FVec.sub pos s) n).div (FVec.dot d n)).toQ = 0 then
          [(JVec.add s.toJ (JVec.scale d.toJ
            (.fin ((FVec.dot (FVec.sub pos s) n).div (FVec.dot d n)))), n.toJ)]
        else [] := by
    unfold line_intersection
    simp only [sub_toJ, dot_toJ, JNum.eqZero]
    rw [if_neg (by simp [hnum])]
    simp only [JNum.div, if_neg hnum]
    rcases lt_trichotomy ((FVec.dot (FVec.sub pos s) n).div (FVec.dot d n)).toQ 0 with h | h | h
    · have hblt : Frc.blt ((FVec.dot (FVec.sub pos s) n).div (FVec.dot d n)) (Frc.ofInt 0) = true := by
        rw [Frc.blt_iff, Frc.toQ_ofInt]
        exact_mod_cast h
      simp [JNum.lt, JNum.gt, hblt, ne_of_lt h, h]
    · have hblt : Frc.blt ((FVec.dot (FVec.sub pos s) n).div (FVec.dot d n)) (Frc.ofInt 0) = false := by
        rw [Bool.eq_false_iff]
        intro hc
        rw [Frc.blt_iff, Frc.toQ_ofInt] at hc
        rw [h] at hc
        exact absurd hc (by norm_num)
      have hbgt : Frc.blt (Frc.ofInt 0) ((FVec.dot (FVec.sub pos s) n).div (FVec.dot d n)) = false := by
        rw [Bool.eq_false_iff]
        intro hc
        rw [Frc.blt_iff, Frc.toQ_ofInt] at hc
        rw [h] at hc
        exact absurd hc (by norm_num)
      simp [JNum.lt, JNum.gt, hblt, hbgt, h]
    · have hbgt : Frc.blt (Frc.ofInt 0) ((FVec.dot (FVec.sub pos s) n).div (FVec.dot d n)) = true := by
        rw [Frc.blt_iff, Frc.toQ_ofInt]
        exact_mod_cast h
      simp [JNum.lt, JNum.gt, hbgt, ne_of_gt h, h]
  rw [hkey, hdivq]
  rcases lt_trichotomy ((FVec.dot (FVec.sub pos s) n).toQ / (FVec.dot d n).toQ) 0 with h | h | h
  · simp [ne_of_lt h, h, not_lt.mpr h.le]
  · simp [h]
  · simp [ne_of_gt h, h, not_lt.mpr h.le, asymm h]

/-- Witness for C10_forward_returns_only_t_zero: the plane x = 1 against
the line from the origin along (1,0,0); the parameter is t = 1 > 0 and
the FORWARD query returns no hit. -/
theorem C10_forward_returns_only_t_zero_witness :
    (FVec.dot (FVec.ofInts 1 0 0) (FVec.ofInts 1 0 0)).toQ ≠ 0 ∧
    line_intersection (FVec.toJ (FVec.ofInts 1 0 0)) (FVec.toJ (FVec.ofInts 1 0 0))
        (FVec.toJ (FVec.ofInts 0 0 0)) (FVec.toJ (FVec.ofInts 1 0 0))
        { allow_infinity := false, intersection_direction := .forward } = [] := by
  have hden : (FVec.dot (FVec.ofInts 1 0 0) (FVec.ofInts 1 0 0)).toQ ≠ 0 := by
    intro h
    rw [Frc.toQ_eq_zero_iff] at h
    revert h
    decide
  refine ⟨hden, ?_⟩
  refine (C10_forward_returns_only_t_zero (FVec.ofInts 1 0 0) (FVec.ofInts 1 0 0)
    (FVec.ofInts 0 0 0) (FVec.ofInts 1 0 0) hden).2.1 ?_
  have h1 : (FVec.dot (FVec.sub (FVec.ofInts 1 0 0) (FVec.ofInts 0 0 0)) (FVec.ofInts 1 0 0)).toQ = 1 :=
    Frc.toQ_eq_of _ 1 1 (by decide) (by decide) (by norm_num)
  have h2 : (FVec.dot (FVec.ofInts 1 0 0) (FVec.ofInts 1 0 0)).toQ = 1 :=
    Frc.toQ_eq_of _ 1 1 (by decide) (by decide) (by norm_num)
  rw [h1, h2]
  norm_num

namespace Tracer

/-- Real 3-vectors for the ray tracer state machine. -/
structure RVec where
  x : ℝ
  y : ℝ
  z : ℝ

def RVec.add (a b : RVec) : RVec := ⟨a.x + b.x, a.y + b.y, a.z + b.z⟩

def RVec.sub (a b : RVec) : RVec := ⟨a.x - b.x, a.y - b.y, a.z - b.z⟩

def RVec.scale (a : RVec) (s : ℝ) : RVec := ⟨a.x * s, a.y * s, a.z * s⟩

def RVec.dot (a b : RVec) : ℝ := a.x * b.x + a.y * b.y + a.z * b.z

/-- Vector length, used for the path_distance update (noncomputable
because the square root over ℝ is; the theorems below never need to
evaluate a path_distance). -/
noncomputable def RVec.len (a : RVec) : ℝ := Real.sqrt (RVec.dot a a)

/-- vector.ts reflection over the tracer's real vectors
(`this.dir.reflection(collision_info.normal)`). -/
def RVec.refl (v normal : RVec) : RVec :=
  RVec.add v (RVec.scale normal (-(RVec.dot v normal) * 2))

/-- RGBA color record of src/physics/color.ts. -/
structure Color where
  r : ℝ
  g : ℝ
  b : ℝ
  a : ℝ

/-- COLOR_BLACK = color(0,0,0) of src/raytracer.ts (alpha defaults 1). -/
def COLOR_BLACK : Color := ⟨0, 0, 0, 1⟩

/-- COLOR_WHITE = color(1,1,1). -/
def COLOR_WHITE : Color := ⟨1, 1, 1, 1⟩

/-- ResponseType of src/material.ts: REFLECTION, REFRACTION, BOTH. -/
inductive ResponseType where
  | reflection
  | refraction
  | both
deriving DecidableEq

/-- The material capabilities consumed by Ray.trace: response_type,
is_mirror and is_light_source (constant for a StaticMaterial), and the
effect of alter_ray on the ray's color (SolidMaterial.alter_ray
multiplies it by a texture sample; an arbitrary color transformer keeps
the interface general). -/
structure Material where
  response : ResponseType
  mirror : Bool
  light : Bool
  alterColor : Color → Color

/-- The fields of a CollisionInfo consumed by the trace loop. -/
structure Collision where
  point : RVec
  normal : RVec
  material : Material

/-- The mutable per-ray state of the Ray class. -/
structure RayState where
  refcount : Nat
  refmax : Nat
  refpoint : RVec
  dir : RVec
  color : Color
  path_distance : ℝ

/-- How the body of the trace loop continues after processing a hit. -/
inductive StepCtl where
  | continueWalk
  | terminated
  | lightBreak
deriving DecidableEq

/-- Translation of the hit-processing body of Ray.trace
(src/raytracer.ts): increment refcount, apply alter_ray, extend
path_distance, move refpoint to the hit point, break on light sources,
then dispatch on response_type; REFLECTION without mirror returns
(absorption), mirror reflection reflects dir, REFRACTION falls through
with no changes, any other response returns; finally the refcount
budget check sets the color to black and returns. -/
noncomputable def processHit (ray : RayState) (ci : Collision) : RayState × StepCtl :=
  let r1 : RayState :=
    { ray with
      refcount := ray.refcount + 1,
      color := ci.material.alterColor ray.color,
      path_distance := ray.path_distance + RVec.len (RVec.sub ci.point ray.refpoint),
      refpoint := ci.point }
  if ci.material.light then (r1, .lightBreak)
  else
    match ci.material.response with
    | .reflection =>
      if ¬ ci.material.mirror then (r1, .terminated)
      else
        let r2 : RayState := { r1 with dir := RVec.refl r1.dir ci.normal }
        if r2.refcount ≥ r2.refmax then ({ r2 with color := COLOR_BLACK }, .terminated)
        else (r2, .continueWalk)
    | .refraction =>
      if r1.refcount ≥ r1.refmax then ({ r1 with color := COLOR_BLACK }, .terminated)
      else (r1, .continueWalk)
    | .both => (r1, .terminated)

end Tracer

namespace Tracer

/-- C6 counterexample: the claim says every hit with a degenerate
normal (dir·normal ≥ 0) terminates the ray with BLACK and applies no
reflection.  The trace loop of src/raytracer.ts contains no such guard:
a mirror-reflection hit with dir·normal = 1 still reflects the
direction, keeps the modulated color and continues walking.  The
counterexample instantiates the quantified claim at that hit and
refutes it. -/
theorem C6_counterexample_no_degenerate_guard :
    ¬ ∀ (ray : RayState) (ci : Collision),
        0 ≤ RVec.dot ray.dir ci.normal →
        (processHit ray ci).2 = .terminated ∧
        (processHit ray ci).1.color = COLOR_BLACK ∧
        (processHit ray ci).1.dir = ray.dir := by
  intro h
  have hc := h ⟨0, 10, ⟨0, 0, 0⟩, ⟨1, 0, 0⟩, COLOR_WHITE, 0⟩
    ⟨⟨1, 0, 0⟩, ⟨1, 0, 0⟩, ⟨.reflection, true, false, id⟩⟩
    (by norm_num [RVec.dot])
  have h2 := hc.1
  rw [show (processHit ⟨0, 10, ⟨0, 0, 0⟩, ⟨1, 0, 0⟩, COLOR_WHITE, 0⟩
      ⟨⟨1, 0, 0⟩, ⟨1, 0, 0⟩, ⟨.reflection, true, false, id⟩⟩).2 = .continueWalk by
    simp [processHit]] at h2
  exact absurd h2 (by simp)

/-- C6 amended: no degenerate-normal guard exists in the trace loop; a
non-light mirror-reflection hit within the bounce budget is processed
identically whatever the sign of dir·normal: the direction is replaced
by the reflection, the color by the material's alter_ray modulation,
and the walk continues.  (The original claim's termination-with-BLACK
behaviour does not occur.) -/
theorem C6_amended_hits_processed_without_normal_guard
    (ray : RayState) (ci : Collision)
    (hresp : ci.material.response = .reflection)
    (hmir : ci.material.mirror = true)
    (hlight : ci.material.light = false)
    (hbudget : ray.refcount + 1 < ray.refmax) :
    (processHit ray ci).2 = .continueWalk ∧
    (processHit ray ci).1.dir = RVec.refl ray.dir ci.normal ∧
    (processHit ray ci).1.color = ci.material.alterColor ray.color := by
  have hnb : ¬ (ray.refcount + 1 ≥ ray.refmax) := by omega
  simp [processHit, hresp, hmir, hlight, hnb]

/-- Witness for C6_amended_hits_processed_without_normal_guard at the
degenerate mirror hit used by the counterexample. -/
theorem C6_amended_hits_processed_without_normal_guard_witness :
    (Collision.mk ⟨1, 0, 0⟩ ⟨1, 0, 0⟩ ⟨.reflection, true, false, id⟩).material.response
        = .reflection ∧
    (0 : Nat) + 1 < 10 ∧
    (processHit ⟨0, 10, ⟨0, 0, 0⟩, ⟨1, 0, 0⟩, COLOR_WHITE, 0⟩
        ⟨⟨1, 0, 0⟩, ⟨1, 0, 0⟩, ⟨.reflection, true, false, id⟩⟩).2 = .continueWalk := by
  refine ⟨rfl, by norm_num, ?_⟩
  exact (C6_amended_hits_processed_without_normal_guard
    ⟨0, 10, ⟨0, 0, 0⟩, ⟨1, 0, 0⟩, COLOR_WHITE, 0⟩
    ⟨⟨1, 0, 0⟩, ⟨1, 0, 0⟩, ⟨.reflection, true, false, id⟩⟩
    rfl rfl rfl (by norm_num)).1

/-- C5 counterexample: the claim says every (non-light) transmission
hit nudges the ray position a small ε forward along dir off the hit
surface (and then refracts and resolves the next substance).  In
src/raytracer.ts the REFRACTION case of the response switch is an empty
`break`: the ray position stays exactly at the hit point, so no ε > 0
nudge exists when dir ≠ 0, refuting the claim already on its
positional component. -/
theorem C5_counterexample_no_transmission_nudge :
    ¬ ∀ (ray : RayState) (ci : Collision),
        ci.material.response = .refraction →
        ci.material.light = false →
        ∃ ε : ℝ, 0 < ε ∧
          (processHit ray ci).1.refpoint = RVec.add ci.point (RVec.scale ray.dir ε) := by
  intro h
  obtain ⟨ε, hε, heq⟩ := h ⟨0, 10, ⟨0, 0, 0⟩, ⟨1, 0, 0⟩, COLOR_WHITE, 0⟩
    ⟨⟨2, 0, 0⟩, ⟨-1, 0, 0⟩, ⟨.refraction, false, false, id⟩⟩ rfl rfl
  rw [show (processHit ⟨0, 10, ⟨0, 0, 0⟩, ⟨1, 0, 0⟩, COLOR_WHITE, 0⟩
      ⟨⟨2, 0, 0⟩, ⟨-1, 0, 0⟩, ⟨.refraction, false, false, id⟩⟩).1.refpoint
      = ⟨2, 0, 0⟩ by simp [processHit]] at heq
  have hx : (2 : ℝ) = 2 + 1 * ε := congrArg RVec.x heq
  linarith

/-- C5 amended: a non-light transmission (REFRACTION response) hit is a
no-op apart from the shared bookkeeping: the ray position becomes
exactly the hit point, the direction is unchanged (no Snell refraction,
no total internal reflection, no substance tracking exists), the color
is the material's alter_ray modulation, and the walk continues unless
the bounce budget is exhausted, in which case the color becomes BLACK
and the ray terminates. -/
theorem C5_amended_transmission_is_noop (ray : RayState) (ci : Collision)
    (hresp : ci.material.response = .refraction)
    (hlight : ci.material.light = false) :
    (processHit ray ci).1.refpoint = ci.point ∧
    (processHit ray ci).1.dir = ray.dir ∧
    (ray.refcount + 1 ≥ ray.refmax →
      (processHit ray ci).2 = .terminated ∧ (processHit ray ci).1.color = COLOR_BLACK) ∧
    (ray.refcount + 1 < ray.refmax →
      (processHit ray ci).2 = .continueWalk ∧
      (processHit ray ci).1.color = ci.material.alterColor ray.color) := by
  refine ⟨?_, ?_, ?_, ?_⟩
  · by_cases hb : ray.refcount + 1 ≥ ray.refmax <;> simp [processHit, hresp, hlight, hb]
  · by_cases hb : ray.refcount + 1 ≥ ray.refmax <;> simp [processHit, hresp, hlight, hb]
  · intro hb
    constructor <;> simp [processHit, hresp, hlight, hb, COLOR_BLACK]
  · intro hb
    have hnb : ¬ (ray.refcount + 1 ≥ ray.refmax) := by omega
    constructor <;> simp [processHit, hresp, hlight, hnb]

/-- Witness for C5_amended_transmission_is_noop at the concrete
transmission hit of the counterexample. -/
theorem C5_amended_transmission_is_noop_witness :
    (Collision.mk ⟨2, 0, 0⟩ ⟨-1, 0, 0⟩ ⟨.refraction, false, false, id⟩).material.response
        = .refraction ∧
    (processHit ⟨0, 10, ⟨0, 0, 0⟩, ⟨1, 0, 0⟩, COLOR_WHITE, 0⟩
        ⟨⟨2, 0, 0⟩, ⟨-1, 0, 0⟩, ⟨.refraction, false, false, id⟩⟩).1.refpoint = ⟨2, 0, 0⟩ := by
  refine ⟨rfl, ?_⟩
  exact (C5_amended_transmission_is_noop
    ⟨0, 10, ⟨0, 0, 0⟩, ⟨1, 0, 0⟩, COLOR_WHITE, 0⟩
    ⟨⟨2, 0, 0⟩, ⟨-1, 0, 0⟩, ⟨.refraction, false, false, id⟩⟩ rfl rfl).1

end Tracer

namespace Oct

/-- A node address: the octant indices (0..7) on the way down from the
absolute root. -/
abbrev OPath := List Nat

/-- The per-node data of Octree<T, OctreeDim>: the geometric dimension
id {pos, size}, the payload value (an entity-id set for the entity
octree), and the invalidated flag. -/
structure NodeD where
  pos : FVec
  size : Frc
  ents : List Nat
  invalid : Bool

/-- An octree heap: the parent-linked object graph of Octree nodes,
addressed by path from the absolute root.  `parent` is the path minus
its last octant; children of `p` are the paths `p ++ [i]` present in
the heap. -/
structure OTree where
  nodes : List (OPath × NodeD)

def OTree.find (t : OTree) (p : OPath) : Option NodeD :=
  (t.nodes.find? (fun e => e.1 == p)).map (·.2)

def OTree.keys (t : OTree) : List OPath := t.nodes.map (·.1)

/-- Fuel bound for the descent loops: longer than every path in the
heap. -/
def OTree.fuelFor (t : OTree) : Nat :=
  (t.nodes.map (fun e => e.1.length)).foldr Nat.max 0 + 1

/-- JS greater-or-equal on exact values. -/
def fge (a b : Frc) : Bool := b.ble a

/-- Translation of space.ts point_in_space: closed-open box membership,
`space.pos[i] <= p[i] < space.pos[i] + space.size[i]` on every axis. -/
def point_in_space (p spos ssize : FVec) : Bool :=
  (fge p.x spos.x && p.x.blt (spos.x.add ssize.x)) &&
  (fge p.y spos.y && p.y.blt (spos.y.add ssize.y)) &&
  (fge p.z spos.z && p.z.blt (spos.z.add ssize.z))

/-- Translation of space.ts space_in_space: the interior space fully
within the exterior space, closed at both ends. -/
def space_in_space (ipos isize epos esize : FVec) : Bool :=
  let iend := ipos.add isize
  let eend := epos.add esize
  (fge ipos.x epos.x && iend.x.ble eend.x) &&
  (fge ipos.y epos.y && iend.y.ble eend.y) &&
  (fge ipos.z epos.z && iend.z.ble eend.z)

/-- Translation of space.ts aabb_in_space. -/
def aabb_in_space (apos : FVec) (asize : Frc) (spos ssize : FVec) : Bool :=
  space_in_space apos ⟨asize, asize, asize⟩ spos ssize

/-- The cubic space of a node, `{pos, size·(1,1,1)}` as built at the
call sites of octree_space.ts and the entity integration. -/
def NodeD.cube (nd : NodeD) : FVec := ⟨nd.size, nd.size, nd.size⟩

/-- One descent step of node_at_pos: the truncating `<< 0` bits of
`(pos − next_dim.pos) · 2/next_dim.size`. -/
def indBits (p dpos : FVec) (dsize : Frc) : Int × Int × Int :=
  let scl := (Frc.ofInt 2).div dsize
  (((p.x.sub dpos.x).mul scl).trunc,
   ((p.y.sub dpos.y).mul scl).trunc,
   ((p.z.sub dpos.z).mul scl).trunc)

/-- The loop of node_at_pos (octree_space.ts): descend through subtree
children, recomputing the running dimension from the root dimension;
returns the deepest subtree together with the child index there.  Fuel
bounds the loop (any fuel above the deepest path length is exact); an
out-of-range computed child index would throw in the source and yields
none here. -/
def node_at_pos_go (t : OTree) (p : FVec) (path : OPath) (dpos : FVec) (dsize : Frc) :
    Nat → Option (OPath × Nat)
  | 0 => none
  | fuel + 1 =>
    let (ix, iy, iz) := indBits p dpos dsize
    let ci : Int := iz * 4 + iy * 2 + ix
    if ci < 0 ∨ 7 < ci then none
    else
      let n : Nat := ci.toNat
      let half := dsize.div (Frc.ofInt 2)
      let dpos' := FVec.add dpos (FVec.scale ⟨Frc.ofInt ix, Frc.ofInt iy, Frc.ofInt iz⟩ half)
      match t.find (path ++ [n]) with
      | some _ => node_at_pos_go t p (path ++ [n]) dpos' half fuel
      | none => some (path, n)

/-- Translation of node_at_pos (octree_space.ts) applied to the
absolute root (the walker and the entity integration pass the root
handle): the initial point_in_space guard against the root dimension,
then the descent loop. -/
def node_at_pos (t : OTree) (p : FVec) : Option (OPath × Nat) :=
  match t.find [] with
  | none => none
  | some root =>
    if point_in_space p root.pos root.cube then
      node_at_pos_go t p [] root.pos root.size t.fuelFor
    else none

/-- The fitting test of get_covering_node_for_entity at a node. -/
def fitsAt (t : OTree) (path : OPath) (apos : FVec) (asize : Frc) : Bool :=
  match t.find path with
  | some nd => aabb_in_space apos asize nd.pos nd.cube
  | none => false

/-- The upward do-while of get_covering_node_for_entity: starting at
the deepest node, climb through parents until the AABB fits; none when
it escapes the absolute root.  Structural recursion on the reversed
path. -/
def climbRev (t : OTree) (rev : OPath) (apos : FVec) (asize : Frc) : Option OPath :=
  if fitsAt t rev.reverse apos asize then some rev.reverse
  else
    match rev with
    | [] => none
    | _ :: tl => climbRev t tl apos asize

/-- Translation of get_covering_node_for_entity (octree entity
integration): node_at_pos at the AABB origin, then the upward climb. -/
def get_covering_node_for_entity (t : OTree) (apos : FVec) (asize : Frc) : Option OPath :=
  match node_at_pos t apos with
  | none => none
  | some (p, _) => climbRev t p.reverse apos asize

/-- Translation of node_at_pos (octree_space.ts) for an arbitrary tree
handle: the dimension is read from the handle (`const dim = octree.id`)
while the node walked is re-based to the absolute root
(`cur_node = cur_node.get_root()`), so both the point_in_space guard
and the seed of the running descent dimensions come from the handle
even though the children descended into are the absolute root's.  With
the root handle this is exactly node_at_pos. -/
def node_at_pos_h (t : OTree) (hpath : OPath) (p : FVec) : Option (OPath × Nat) :=
  match t.find hpath with
  | none => none
  | some hnd =>
    if point_in_space p hnd.pos hnd.cube then
      node_at_pos_go t p [] hnd.pos hnd.size t.fuelFor
    else none

/-- Translation of get_covering_node_for_entity for an arbitrary tree
handle: node_at_pos seeded with the handle's dimensions, then the
upward climb through parent links (which is handle-independent). -/
def get_covering_node_for_entity_h (t : OTree) (hpath : OPath) (apos : FVec)
    (asize : Frc) : Option OPath :=
  match node_at_pos_h t hpath apos with
  | none => none
  | some (p, _) => climbRev t p.reverse apos asize

end Oct

namespace Oct

/-- JS clamp from math/mathutils.ts, specialised to the integer value
produced by Math.floor at its only use in the outside growth:
`Math.max(Math.min(number, max), min)`. -/
def clampI (n lo hi : Int) : Int := max (min n hi) lo

/-- Insert or replace the node data at a path. -/
def OTree.setData (t : OTree) (p : OPath) (nd : NodeD) : OTree :=
  ⟨(p, nd) :: t.nodes.filter (fun e => ¬ e.1 == p)⟩

/-- Octree.set of a child slot with a fresh subtree: the old subtree
(if any) is detached from the object graph and invalidated; the heap
keeps only reachable nodes, so the detached subtree's keys disappear. -/
def OTree.setChild (t : OTree) (p : OPath) (n : Nat) (nd : NodeD) : OTree :=
  ⟨(p ++ [n], nd) :: t.nodes.filter
    (fun e => ¬ (p ++ [n]) <+: e.1)⟩

/-- Re-key the whole heap below a fresh root whose child `n` is the old
absolute root: models the outside growth splice
`new_parent.set(idx, cur_node); cur_node.parent = new_parent`. -/
def OTree.wrapRoot (t : OTree) (n : Nat) (rootNd : NodeD) : OTree :=
  ⟨([], rootNd) :: t.nodes.map (fun e => (n :: e.1, e.2))⟩

/-- One iteration of the while loop of
extend_tree_outside_to_fit_up_to_depth: the clamped floor bit-vector,
the doubled parent dimension, the signed octant index of the old root,
and the spliced heap.  Returns the new heap together with the octant
the old root was placed at. -/
def growStep (t : OTree) (apos : FVec) : OTree × Nat :=
  match t.find [] with
  | none => (t, 0)
  | some cur =>
    let ax := clampI ((apos.x.sub cur.pos.x).div cur.size).floor (-1) 0
    let ay := clampI ((apos.y.sub cur.pos.y).div cur.size).floor (-1) 0
    let az := clampI ((apos.z.sub cur.pos.z).div cur.size).floor (-1) 0
    let parent_pos := FVec.add cur.pos
      (FVec.scale ⟨Frc.ofInt ax, Frc.ofInt ay, Frc.ofInt az⟩ cur.size)
    let parent_size := cur.size.mul (Frc.ofInt 2)
    let idx : Nat := ((-az) * 4 + (-ay) * 2 + (-ax)).toNat
    (t.wrapRoot idx ⟨parent_pos, parent_size, [], false⟩, idx)

/-- Translation of extend_tree_outside_to_fit_up_to_depth applied to
the absolute root (its precondition): repeatedly wrap the root until
the AABB fits; when the depth budget is exhausted without a fit, the
error carries the last-grown absolute root, as TreeOutsideGrowError
does.  The fuel is the remaining iteration count
max_depth − cur_depth of the source loop; alongside the new heap the
accumulated path of the old absolute root inside the grown tree is
returned (the object identity of the `tree` handle). -/
def extend_tree_outside (t : OTree) (apos : FVec) (asize : Frc) :
    Nat → Except OTree (OTree × OPath)
  | 0 => .error t
  | fuel + 1 =>
    let g := growStep t apos
    match g.1.find [] with
    | none => .error g.1
    | some parent =>
      if aabb_in_space apos asize parent.pos parent.cube then
        .ok (g.1, [g.2])
      else
        match extend_tree_outside g.1 apos asize fuel with
        | .ok (t'', pfx) => .ok (t'', pfx ++ [g.2])
        | .error e => .error e

/-- The truncating bits `[x, y, z] = ((aabb.pos − cur.pos)·2/size).map(v => v << 0)`
of extend_tree_inside_to_fit_up_to_depth. -/
def insideBits (apos npos : FVec) (nsize : Frc) : Int × Int × Int :=
  indBits apos npos nsize

/-- The loop of extend_tree_inside_to_fit_up_to_depth: while the depth
budget allows and a single child sub-box still wholly contains the
AABB, create a fresh subtree there (Octree.set detaches any previous
occupant) and descend.  Fuel is max_depth − cur_depth (as an integer
turned into a count); returns the final heap and node path. -/
def extend_tree_inside_go (apos : FVec) (asize : Frc) :
    Nat → OTree → OPath → OTree × OPath
  | 0, t, cur => (t, cur)
  | fuel + 1, t, cur =>
    match t.find cur with
    | none => (t, cur)
    | some nd =>
      let (x, y, z) := insideBits apos nd.pos nd.size
      let half := nd.size.div (Frc.ofInt 2)
      let spos := FVec.add nd.pos
        (FVec.scale ⟨Frc.ofInt x, Frc.ofInt y, Frc.ofInt z⟩ half)
      if aabb_in_space apos asize spos ⟨half, half, half⟩ then
        let node_idx : Nat := (z * 4 + y * 2 + x).toNat
        let t' := t.setChild cur node_idx ⟨spos, half, [], false⟩
        extend_tree_inside_go apos asize fuel t' (cur ++ [node_idx])
      else (t, cur)

def extend_tree_inside (t : OTree) (node : OPath) (apos : FVec) (asize : Frc)
    (curDepth maxDepth : Int) : OTree × OPath :=
  extend_tree_inside_go apos asize (maxDepth - curDepth).toNat t node

/-- Modelled from the spec: the Entity class carrying set_octree is not
among the sources (only its callers are); per §3 an entity belongs to
the entity set of exactly one node at a time and add_entity_to_octree
ends by inserting the entity into the final node's entity set, so
set_octree moves the entity id into the target node's set and out of
any other. -/
def set_octree (t : OTree) (ent : Nat) (target : OPath) : OTree :=
  ⟨t.nodes.map (fun e =>
    if e.1 == target then (e.1, { e.2 with ents := ent :: e.2.ents.filter (· ≠ ent) })
    else (e.1, { e.2 with ents := e.2.ents.filter (· ≠ ent) }))⟩

/-- Translation of add_entity_to_octree for an arbitrary tree handle:
the caller keeps one Octree object across calls, and after an outside
growth that same object is an interior node of the enlarged tree.  The
handle enters three ways: node_at_pos seeds its dimensions from the
handle, the inside-extension depth counter starts at
fitting.get_relative_level(handle) = level(fitting) − level(handle),
and the outside growth runs while the handle-based counter
cur_depth = level(handle) stays below max_out_depth, i.e. for at most
max_out_depth − level(handle) wraps.  Returns the final heap, the
fitting node's path and the handle's path in the new heap (the same
object, re-keyed below the growth prefix). -/
def add_entity_to_octree (t : OTree) (hpath : OPath) (ent : Nat) (apos : FVec)
    (asize : Frc) (maxInDepth maxOutDepth : Int) :
    Except OTree (OTree × OPath × OPath) :=
  match get_covering_node_for_entity_h t hpath apos asize with
  | some p =>
    let r := extend_tree_inside t p apos asize
      ((p.length : Int) - (hpath.length : Int)) maxInDepth
    .ok (set_octree r.1 ent r.2, r.2, hpath)
  | none =>
    match extend_tree_outside t apos asize
        (maxOutDepth - (hpath.length : Int)).toNat with
    | .error e => .error e
    | .ok (t', pfx) =>
      let hpath' := pfx ++ hpath
      let r := extend_tree_inside t' [] apos asize
        (-(hpath'.length : Int)) maxInDepth
      .ok (set_octree r.1 ent r.2, r.2, hpath')

end Oct

namespace Walker

open Oct

/-- The optimisation lookup table NODE_ORDER_MAP of octree_const.ts,
mapping the 9-bit logic vector to a 2-bit order index. -/
def NODE_ORDER_MAP : Nat := 0x2040000040200000801000001080104030404110402440108010104010c0000228c4000882200108822000023880108138c4c10c8024c10c8020108138c204002040020000200100001000000003344334400220022441144110000000022cc22cc88228822001100110000000030c0030c802008024010040100000000

/-- The cross order permutations NODE_ORDERS of octree_const.ts. -/
def NODE_ORDERS : List (List Nat) :=
  [[3, 2, 1, 0, 4, 6, 5, 7],
   [2, 0, 3, 1, 5, 4, 7, 6],
   [1, 0, 3, 2, 6, 4, 7, 5],
   [0, 2, 1, 3, 7, 6, 5, 4]]

/-- The cursor's cross logic: the 9-bit logic vector and the remaining
node visit order. -/
structure CrossLogic where
  logic : Nat
  order : List Nat

/-- The OctreeWalkerCursor state. -/
structure Cursor where
  tree : Option OPath
  node : Option Nat
  start_point : Option FVec
  direction : Option FVec
  orderRev : Bool
  cross_logic : Option CrossLogic
  was_returned : Bool

/-- An OctreeWalkerNodeInfo stack entry. -/
structure InfoEntry where
  tree : OPath
  cross_logic : CrossLogic
  was_returned : Bool

/-- The OctreeWalker: the walked tree heap (the constructor's tree is
the absolute root of a parent-linked heap), the cursor and the NodeInfo
stack. -/
structure WState where
  heap : OTree
  cursor : Cursor
  info_stack : List InfoEntry

/-- The output of next(): the returned node (a heap path when it is a
subtree, none for an undefined child slot) and its position within the
parent (none when the returned node is the tree root). -/
structure NextOut where
  node : Option OPath
  pos : Option (OPath × Nat)
deriving DecidableEq

/-- new OctreeWalker(tree) before any start point or direction is
assigned. -/
def mk (heap : OTree) : WState :=
  ⟨heap, ⟨none, none, none, none, false, none, false⟩, []⟩

/-- index_within_parent of octree_space.ts: the cached index is never
assigned anywhere in the sources, so the geometric computation runs:
truncating bits of (child.pos − parent.pos) · 2/parent.size; null at
the absolute root. -/
def index_within_parent (heap : OTree) (child : OPath) : Option Int :=
  match child.dropLast, heap.find child.dropLast, heap.find child with
  | _, _, none => none
  | parentPath, some pnd, some cnd =>
    if child = [] then none
    else
      let _ := parentPath
      let (ix, iy, iz) := indBits cnd.pos pnd.pos pnd.size
      some (iz * 4 + iy * 2 + ix)
  | _, none, some _ => none

/-- go_to_point: place the cursor at the deepest node covering the
point (node_at_pos on the walker's tree; the start_from_current retry
of the source coincides with the plain call because the walker's tree
handle is the absolute root), or at the outermost tree with an
undefined node when the point is outside; deprecates the cursor logic
and the stack. -/
def go_to_point (s : WState) (point : FVec) : WState :=
  let pos_node := node_at_pos s.heap point
  let c := s.cursor
  match pos_node with
  | none =>
    { s with info_stack := [],
             cursor := { c with cross_logic := none, was_returned := false,
                                tree := some [], node := none } }
  | some (p, oct) =>
    { s with info_stack := [],
             cursor := { c with cross_logic := none, was_returned := false,
                                tree := some p, node := some oct } }

/-- The start_point setter. -/
def setStartPoint (s : WState) (point : FVec) : WState :=
  let s' := go_to_point s point
  { s' with cursor := { s'.cursor with start_point := some point } }

/-- The direction setter: deprecates the cursor logic and installs the
order_prepare function — reverse when dir.z < 0 or dir.y < 0, default
otherwise. -/
def setDirection (s : WState) (dir : FVec) : WState :=
  { s with cursor :=
    { s.cursor with
      cross_logic := none,
      direction := some dir,
      orderRev := dir.z.blt (Frc.ofInt 0) || dir.y.blt (Frc.ofInt 0) } }

/-- One fill_logic_vec_for_planes pass of setup_order: intersect the
line with the mid plane of index plane_i (its stored normal is the
unnormalised (axis_bit&1, axis_bit&2, axis_bit&4), passed with
assume_normalized), compare the probe point with the mid point on the
two remaining axes, and return the contributed logic bits.  The probe
intersection always produces one entry because allow_infinity is set
and the direction filter is BOTH. -/
def fill_logic (mid : JVec) (startP dirP : JVec) (half : Frc)
    (axis1 axis2 plane_i : Nat) : Nat :=
  let axis_bit : Nat := 1 <<< plane_i
  let normal : JVec := ⟨.fin (Frc.ofInt ((axis_bit &&& 1 : Nat) : Int)),
                        .fin (Frc.ofInt ((axis_bit &&& 2 : Nat) : Int)),
                        .fin (Frc.ofInt ((axis_bit &&& 4 : Nat) : Int))⟩
  let cross := line_intersection normal mid startP dirP
    { allow_infinity := true, intersection_direction := .both }
  match cross with
  | [] => 0
  | probe :: _ =>
    let d1 := JNum.sub (probe.1.nth axis1) (mid.nth axis1)
    let d2 := JNum.sub (probe.1.nth axis2) (mid.nth axis2)
    let a1_ae := JNum.ge d1 (.fin (Frc.ofInt 0))
    let a2_ae := JNum.ge d2 (.fin (Frc.ofInt 0))
    let a1_of := JNum.gt d1 (.fin half) || JNum.lt d1 (.fin half.neg)
    let a2_of := JNum.gt d2 (.fin half) || JNum.lt d2 (.fin half.neg)
    Nat.lor ((a1_ae.toNat ||| (a2_ae.toNat <<< 1)) <<< (plane_i <<< 1))
      ((a1_of || a2_of).toNat <<< (6 + plane_i))

/-- order_shift_until: drop leading order entries until the given node
is at the front; no shift when the node is undefined or absent
(indexOf = −1 fails the is_at_bounds guard of order_shift_n_elem). -/
def order_shift_until (cl : CrossLogic) (node : Option Nat) : CrossLogic :=
  match node with
  | none => cl
  | some v =>
    match cl.order.indexOf? v with
    | none => cl
    | some i => { cl with order := cl.order.drop i }

/-- setup_order (octree_space.ts): build the 9-bit logic vector from
the three mid-plane probes, select the order permutation through
NODE_ORDER_MAP (the BigInt shift-and-mask is division and remainder on
the nonnegative table), apply the installed order_prepare function, and
shift until the cursor's node. -/
def setup_order (s : WState) : WState :=
  match s.cursor.tree, s.cursor.start_point, s.cursor.direction with
  | some treeP, some sp, some dp =>
    match s.heap.find treeP with
    | none => s
    | some nd =>
      let half := nd.size.div (Frc.ofInt 2)
      let mid : JVec := (FVec.add nd.pos ⟨half, half, half⟩).toJ
      let l0 := fill_logic mid sp.toJ dp.toJ half 1 2 0
      let l1 := fill_logic mid sp.toJ dp.toJ half 0 2 1
      let l2 := fill_logic mid sp.toJ dp.toJ half 0 1 2
      let logic_vec := Nat.lor (Nat.lor l0 l1) l2
      let order_index := NODE_ORDER_MAP / 2 ^ (logic_vec <<< 1) % 4
      let base := (NODE_ORDERS.getD order_index []).drop 0
      let order_sequence := if s.cursor.orderRev then base.reverse else base
      let cl := order_shift_until ⟨logic_vec, order_sequence⟩ s.cursor.node
      { s with cursor := { s.cursor with cross_logic := some cl } }
  | _, _, _ => s

/-- modify_cursor_logic: reseat the cursor and refresh its logic; with
exclude_node, additionally skip the leading order entry when it is the
given node. -/
def modify_cursor_logic (s : WState) (treeP : OPath) (node : Option Nat)
    (exclude : Bool) : WState :=
  let s1 := { s with cursor :=
    { s.cursor with tree := some treeP, node := node, cross_logic := none } }
  let s2 := setup_order s1
  match s2.cursor.cross_logic with
  | none => s2
  | some cl =>
    if exclude ∧ cl.order.head? = node then
      let cl' := { cl with order := cl.order.drop 1 }
      { s2 with cursor := { s2.cursor with cross_logic := some cl',
                                           node := cl'.order.head? } }
    else s2

/-- validate_cursor_state. -/
def validate_cursor_state (s : WState) : WState :=
  match s.cursor.tree, s.cursor.cross_logic with
  | some _, some _ => s
  | _, _ => modify_cursor_logic s (s.cursor.tree.getD []) s.cursor.node false

/-- pop_info_stack with exclude_node (its only use, in step_back); the
source method returns undefined on success and false on an empty stack
— both falsy, which step_back relies on.  The boolean here reports
whether an entry was popped (used only to model the subsequent
control flow of step_back, not as the source's return value). -/
def pop_info_stack_exclude (s : WState) : WState × Bool :=
  match s.info_stack with
  | [] => (s, false)
  | info :: rest =>
    let cl' := { info.cross_logic with order := info.cross_logic.order.drop 1 }
    (⟨s.heap,
      { s.cursor with tree := some info.tree, node := cl'.order.head?,
                      cross_logic := some cl' },
      rest⟩, true)

/-- push_info_stack. -/
def push_info_stack (s : WState) : WState :=
  match s.cursor.tree, s.cursor.cross_logic with
  | some t, some cl =>
    { s with info_stack := ⟨t, cl, s.cursor.was_returned⟩ :: s.info_stack }
  | _, _ => s

/-- step_back: the successful pop returns a falsy value in the source,
so control always falls through to the parent branch, which reads the
(possibly just popped) cursor tree: with a parent, the cursor logic is
rebuilt there excluding the octant stepped out of and walking
continues; at the absolute root the walk ends. -/
def step_back (s : WState) : WState × Bool :=
  let (s1, _) := pop_info_stack_exclude s
  match s1.cursor.tree with
  | none => (s1, false)
  | some [] => (s1, false)
  | some (treeP) =>
    match index_within_parent s1.heap treeP with
    | none => (s1, false)
    | some idx =>
      (modify_cursor_logic s1 treeP.dropLast (some idx.toNat) true, true)

/-- step_in: push the current context, rebuild the logic inside the
subtree with an undefined cursor node, and mark the subtree itself as
already returned. -/
def step_in (s : WState) (subtree : OPath) : WState :=
  let s1 := push_info_stack s
  let s2 := modify_cursor_logic s1 subtree none false
  { s2 with cursor := { s2.cursor with was_returned := true } }

/-- is_crossed (octree_space.ts) on the 9-bit logic vector. -/
def is_crossed (logic n : Nat) : Bool :=
  let p_yz := logic &&& 3
  let p_xz := logic >>> 2 &&& 3
  let p_xy := logic >>> 4 &&& 3
  let of_yz := logic &&& 0x40 ≠ 0
  let of_xz := logic &&& 0x80 ≠ 0
  let of_xy := logic &&& 0x100 ≠ 0
  let s_yz := n >>> 1 &&& 3
  let s_xz := (n >>> 1 &&& 2) ||| (n &&& 1)
  let s_xy := n &&& 3
  (p_xz = s_xz && (!of_xz || p_yz = s_yz))
    || (p_yz = s_yz && (!of_yz || p_xy = s_xy))
    || (p_xy = s_xy && (!of_xy || p_xz = s_xz))

/-- The inner while loop of next(): shift order entries until one is
crossed and visible (include_undefined or a defined child); returns the
remaining order and the found octant. -/
def scan_order (heap : OTree) (includeUndef : Bool) (treeP : OPath) (logic : Nat) :
    List Nat → List Nat × Option Nat
  | [] => ([], none)
  | n :: rest =>
    let child := heap.find (treeP ++ [n])
    if is_crossed logic n && (includeUndef || child.isSome) then (rest, some n)
    else scan_order heap includeUndef treeP logic rest

/-- The body of next()'s do-while, fuelled by the maximum number of
step_back returns (bounded by tree depth plus stack size; the concrete
theorems use ample fuel).  Mirrors: skip invalidated trees, scan the
order for the next crossed slot (stepping into subtrees), emit the
tree's own stop once when the order is exhausted, then step back. -/
def next_go (includeUndef : Bool) : Nat → WState → WState × Option NextOut
  | 0, s => (s, none)
  | fuel + 1, s =>
    let treeP := s.cursor.tree.getD []
    let invalid :=
      match s.heap.find treeP with
      | some nd => nd.invalid
      | none => false
    if invalid then
      match step_back s with
      | (s1, true) => next_go includeUndef fuel s1
      | (s1, false) => (s1, none)
    else
      let cl := (s.cursor.cross_logic.getD ⟨0, []⟩)
      let (rest, found) := scan_order s.heap includeUndef treeP cl.logic cl.order
      let s1 := { s with cursor :=
        { s.cursor with cross_logic := some { cl with order := rest } } }
      match found with
      | some n =>
        match s1.heap.find (treeP ++ [n]) with
        | some _ =>
          let s2 := step_in s1 (treeP ++ [n])
          (s2, some ⟨some (treeP ++ [n]), some (treeP, n)⟩)
        | none =>
          let s2 := { s1 with cursor := { s1.cursor with node := some n } }
          (s2, some ⟨none, some (treeP, n)⟩)
      | none =>
        if ¬ s1.cursor.was_returned then
          let res_pos :=
            match index_within_parent s1.heap treeP with
            | some idx => some (treeP.dropLast, idx.toNat)
            | none => none
          let s2 := { s1 with cursor := { s1.cursor with was_returned := true } }
          (s2, some ⟨some treeP, res_pos⟩)
        else
          match step_back s1 with
          | (s2, true) => next_go includeUndef fuel s2
          | (s2, false) => (s2, none)

/-- next() of the OctreeWalker: throws when start_point or direction is
unset, otherwise validates the cursor logic and runs the traversal
loop. -/
def next (s : WState) (includeUndef : Bool) (fuel : Nat) :
    Except String (WState × Option NextOut) :=
  if s.cursor.start_point.isNone then .error "start_point undefined"
  else if s.cursor.direction.isNone then .error "direction undefined"
  else
    let s1 := validate_cursor_state s
    .ok (next_go includeUndef fuel s1)

/-- each_cross iterated to exhaustion: collect the stops of repeated
next() calls. -/
def each_cross (s : WState) (includeUndef : Bool) : Nat → List NextOut
  | 0 => []
  | fuel + 1 =>
    match next s includeUndef (fuel + 1) with
    | .error _ => []
    | .ok (_, none) => []
    | .ok (s', some out) => out :: each_cross s' includeUndef fuel

/-- The octant sequence of the slotted stops (the stops carrying a
(tree, octant) position). -/
def stopOctants (outs : List NextOut) : List Nat :=
  (outs.filterMap (·.pos)).map (·.2)

end Walker

namespace Walker

open Oct

/-- The one-level octree of the walker scenarios: a root with dimension
{pos = (0,0,0), size = 1} and no subtrees. -/
def unitRootTree : OTree :=
  ⟨[([], ⟨FVec.ofInts 0 0 0, Frc.ofInt 1, [], false⟩)]⟩

/-- A walker on a tree with the start point and direction assigned
through the setters, as the tests and the tracer do. -/
def walkerOn (t : OTree) (p d : FVec) : WState :=
  setDirection (setStartPoint (mk t) p) d

/-- The slot ((parent tree, octant) position) sequence of a stop
list. -/
def slotsOf (outs : List NextOut) : List (OPath × Nat) := outs.filterMap (·.pos)

/-- C1: the claim predicts that the one-level diagonal walk (start
(0,0,0), direction (1,1,1), include_undefined) yields the octant
sequence [0, 1, 3, 7].  Evaluating the embedded walker at that input
yields [6, 5, 7] (followed by the root stop), which also contradicts
the in-tree test expectation [3, 5, 7, 6]: the code disagrees with its
own test suite and with the spec. -/
theorem C1_walker_diagonal_actual_sequence :
    stopOctants (each_cross (walkerOn unitRootTree (FVec.ofInts 0 0 0)
        (FVec.ofInts 1 1 1)) true 20) = [6, 5, 7] ∧
    each_cross (walkerOn unitRootTree (FVec.ofInts 0 0 0)
        (FVec.ofInts 1 1 1)) true 20
      = [⟨none, some ([], 6)⟩, ⟨none, some ([], 5)⟩, ⟨none, some ([], 7)⟩,
         ⟨some [], none⟩] ∧
    stopOctants (each_cross (walkerOn unitRootTree (FVec.ofInts 0 0 0)
        (FVec.ofInts 1 1 1)) true 20) ≠ [0, 1, 3, 7] := by
  refine ⟨by decide, by decide, by decide⟩

/-- The outcome of a next() call, abstracting the walker state: none
for a thrown error, otherwise the returned stop (or null). -/
def nextOutcome (s : WState) (includeUndef : Bool) (fuel : Nat) :
    Option (Option NextOut) :=
  match next s includeUndef fuel with
  | .error _ => none
  | .ok (_, o) => some o

/-- C7 counterexample: the claim says a walk with direction (0,0,0) is
rejected — next() raises an error for every tree and start point.  On
the unit root tree with start (0,0,0) the embedded next() returns the
stop (root, octant 0) instead of an error (prepare_to_walk only
rejects an unset start point or direction; the zero vector passes both
checks and the NaN/Infinity plane probes still produce a logic vector). -/
theorem C7_counterexample_zero_direction_not_rejected :
    ¬ ∀ (t : OTree) (p : FVec),
        nextOutcome (walkerOn t p (FVec.ofInts 0 0 0)) true 20 = none := by
  intro h
  have hc := h unitRootTree (FVec.ofInts 0 0 0)
  revert hc
  decide

/-- The thrown message of a next() call, if any. -/
def nextErrMsg (s : WState) (includeUndef : Bool) (fuel : Nat) : Option String :=
  match next s includeUndef fuel with
  | .error e => some e
  | .ok _ => none

/-- C7 amended: next() errors exactly on an unset start point or
direction; a zero direction vector is accepted and produces stops — on
the unit root tree from the origin the first stop is the slot
(root, 0). -/
theorem C7_amended_only_unset_inputs_rejected :
    nextErrMsg (mk unitRootTree) true 20 = some "start_point undefined" ∧
    nextErrMsg (setStartPoint (mk unitRootTree) (FVec.ofInts 0 0 0)) true 20
        = some "direction undefined" ∧
    nextOutcome (walkerOn unitRootTree (FVec.ofInts 0 0 0) (FVec.ofInts 0 0 0)) true 20
      = some (some ⟨none, some ([], 0)⟩) := by
  refine ⟨by decide, by decide, by decide⟩

/-- The ℚ point reached by the ray p + t·d. -/
def rayAtQ (p d : FVec) (t : ℚ) : ℚ × ℚ × ℚ :=
  (p.x.toQ + t * d.x.toQ, p.y.toQ + t * d.y.toQ, p.z.toQ + t * d.z.toQ)

/-- The canonical sub-box of a slot: child i of a node sits at offset
((i&1), (i>>1)&1, (i>>2)&1) · size/2 with half the edge. -/
def slotBoxQ (heap : OTree) (slot : OPath × Nat) : Option ((ℚ × ℚ × ℚ) × ℚ) :=
  (heap.find slot.1).map (fun nd =>
    let h := nd.size.toQ / 2
    ((nd.pos.x.toQ + (slot.2 % 2 : Nat) * h,
      nd.pos.y.toQ + (slot.2 / 2 % 2 : Nat) * h,
      nd.pos.z.toQ + (slot.2 / 4 % 2 : Nat) * h), h))

/-- The ray is inside the (half-open) sub-box of a slot at parameter
t. -/
def insideSlotAt (heap : OTree) (p d : FVec) (slot : OPath × Nat) (t : ℚ) : Prop :=
  match slotBoxQ heap slot with
  | none => False
  | some ((bx, by_, bz), h) =>
    let (rx, ry, rz) := rayAtQ p d t
    bx ≤ rx ∧ rx < bx + h ∧ by_ ≤ ry ∧ ry < by_ + h ∧ bz ≤ rz ∧ rz < bz + h

/-- The stops can be assigned nondecreasing nonnegative entry
parameters along the ray (the order-of-first-entry contract of the
spec, in its weakest reading: some admissible nondecreasing entry
times exist). -/
def EntryOrdered (heap : OTree) (p d : FVec) (slots : List (OPath × Nat)) : Prop :=
  ∃ ts : List ℚ, List.Chain' (· ≤ ·) ts ∧
    List.Forall₂ (fun slot t => 0 ≤ t ∧ insideSlotAt heap p d slot t) slots ts

end Walker

namespace Walker

open Oct

/-- C3 counterexample: the claim says for every tree, start and
non-zero direction the walker's slots are pairwise distinct and appear
in the order the ray first enters them.  On the unit root tree with
start (0,0,0) and direction (1,1,4) the walker yields the slots
[(root,0), (root,4), (root,7)], but the ray never enters octant 7 at
any parameter t ≥ 0 (entering needs t ≥ 1/2 on the x axis and
t < 1/4 on the z axis), so no admissible entry ordering exists: the
crossed-octant logic over-approximates and the entry-order contract
fails. -/
theorem C3_counterexample_stop_never_entered :
    ¬ ∀ (heap : OTree) (p d : FVec) (flag : Bool),
        (d.x.toQ ≠ 0 ∨ d.y.toQ ≠ 0 ∨ d.z.toQ ≠ 0) →
        (slotsOf (each_cross (walkerOn heap p d) flag 50)).Nodup ∧
        EntryOrdered heap p d (slotsOf (each_cross (walkerOn heap p d) flag 50)) := by
  intro h
  have hdx : (FVec.ofInts 1 1 4).x.toQ ≠ 0 := by
    simp [FVec.ofInts, Frc.toQ_ofInt]
  obtain ⟨-, ts, hchain, hf⟩ :=
    h unitRootTree (FVec.ofInts 0 0 0) (FVec.ofInts 1 1 4) true (Or.inl hdx)
  rw [show slotsOf (each_cross (walkerOn unitRootTree (FVec.ofInts 0 0 0)
      (FVec.ofInts 1 1 4)) true 50) = [([], 0), ([], 4), ([], 7)] by decide] at hf
  rcases hf with _ | ⟨_, hf1⟩
  rcases hf1 with _ | ⟨_, hf2⟩
  rcases hf2 with _ | ⟨⟨ht0, hin⟩, _⟩
  revert hin
  unfold insideSlotAt
  rw [show slotBoxQ unitRootTree ([], 7)
      = some (((Frc.ofInt 0).toQ + ((7 % 2 : Nat) : ℚ) * ((Frc.ofInt 1).toQ / 2),
               (Frc.ofInt 0).toQ + ((7 / 2 % 2 : Nat) : ℚ) * ((Frc.ofInt 1).toQ / 2),
               (Frc.ofInt 0).toQ + ((7 / 4 % 2 : Nat) : ℚ) * ((Frc.ofInt 1).toQ / 2)),
              (Frc.ofInt 1).toQ / 2) from rfl]
  simp only [Frc.toQ_ofInt, rayAtQ, FVec.ofInts]
  push_cast
  intro hin
  obtain ⟨hx1, -, -, -, -, hz2⟩ := hin
  norm_num at hx1 hz2
  linarith

/-- The five-node tree of the repeated-slot counterexample: the unit
root with subtrees, at the canonical child dimensions, along the paths
[4], [4, 0], [4, 0, 2] and [4, 4]. -/
def C3repTree : OTree :=
  ⟨[([], ⟨FVec.ofInts 0 0 0, Frc.ofInt 1, [], false⟩),
    ([4], ⟨⟨Frc.ofInt 0, Frc.ofInt 0, ⟨1, 2, by norm_num⟩⟩,
      ⟨1, 2, by norm_num⟩, [], false⟩),
    ([4, 0], ⟨⟨Frc.ofInt 0, Frc.ofInt 0, ⟨1, 2, by norm_num⟩⟩,
      ⟨1, 4, by norm_num⟩, [], false⟩),
    ([4, 0, 2], ⟨⟨Frc.ofInt 0, ⟨1, 4, by norm_num⟩, ⟨1, 2, by norm_num⟩⟩,
      ⟨1, 8, by norm_num⟩, [], false⟩),
    ([4, 4], ⟨⟨Frc.ofInt 0, Frc.ofInt 0, ⟨3, 4, by norm_num⟩⟩,
      ⟨1, 4, by norm_num⟩, [], false⟩)]⟩

set_option maxRecDepth 100000 in
set_option maxHeartbeats 4000000 in
/-- C3 amended: both halves of the claim fail.  The entry-order half
fails by the counterexample above.  The at-most-once half fails too:
on the unit root tree with subtrees at [4], [4,0], [4,0,2] and [4,4],
start (0,0,0) and direction (1,1,4), the walker yields the slot
(root, 7) twice.  After a nested walk returns, pop_info_stack restores
a stale stack entry but returns it — a falsy value — so step_back's
`if` never takes the popped branch and falls through to
modify_cursor_logic on the parent, which re-scans the root's crossed
octants and re-emits an already yielded slot.  The walker is therefore
neither duplicate-free nor ordered by ray entry. -/
theorem C3_amended_walker_repeats_slots :
    slotsOf (each_cross (walkerOn C3repTree (FVec.ofInts 0 0 0)
        (FVec.ofInts 1 1 4)) true 50) =
      [([], 0), ([], 4), ([4], 0), ([4, 0], 3), ([4, 0], 2), ([4, 0, 2], 1),
       ([4, 0, 2], 5), ([4], 4), ([4, 4], 3), ([4, 4], 7), ([], 7), ([], 7)] ∧
    ¬ (slotsOf (each_cross (walkerOn C3repTree (FVec.ofInts 0 0 0)
        (FVec.ofInts 1 1 4)) true 50)).Nodup := by
  have h : slotsOf (each_cross (walkerOn C3repTree (FVec.ofInts 0 0 0)
      (FVec.ofInts 1 1 4)) true 50) =
      [([], 0), ([], 4), ([4], 0), ([4, 0], 3), ([4, 0], 2), ([4, 0, 2], 1),
       ([4, 0, 2], 5), ([4], 4), ([4, 4], 3), ([4, 4], 7), ([], 7), ([], 7)] := by
    decide
  refine ⟨h, ?_⟩
  rw [h]
  decide

end Walker

namespace Oct

/-- Modelled from the spec (the claim's formula): JS Math.round is
⌊x + 1/2⌋, and the spec's per-axis offset is
clamp(round((entity.pos − cur.pos)/cur.size), −1, 0). -/
def spec_round_clamp (q : ℚ) : ℤ := max (min ⌊q + 1 / 2⌋ 0) (-1)

/-- The clamped floor the code actually computes, at the ℚ level. -/
def floor_clamp (q : ℚ) : ℤ := max (min ⌊q⌋ 0) (-1)

/-- The unit root tree used by the growth scenarios, with an empty
entity set. -/
def C4tree : OTree := ⟨[([], ⟨FVec.ofInts 0 0 0, Frc.ofInt 1, [], false⟩)]⟩

/-- The AABB origin (−2/5, 0, 0) of the C4 scenario. -/
def C4apos : FVec := ⟨⟨-2, 5, by norm_num⟩, Frc.ofInt 0, Frc.ofInt 0⟩

def C4asize : Frc := ⟨1, 10, by norm_num⟩

/-- The x coordinate of the grown absolute root's origin after the
outside growth of the C4 scenario (with any positive depth budget the
AABB fits after one doubling). -/
def C4grownOriginX : Option Frc :=
  match extend_tree_outside C4tree C4apos C4asize 10 with
  | .error _ => none
  | .ok (t', _) => (t'.find []).map (·.pos.x)

/-- C4 counterexample: the claim's offset vector uses
clamp(round((entity.pos − cur.pos)/cur.size), −1, 0).  For the AABB at
x = −2/5 against the unit root at the origin, the rounded clamp is 0,
so the claim predicts the new parent origin x = 0; the code floors
(extend_tree_outside_to_fit_up_to_depth uses Math.floor) and produces
origin x = −1, placing the old root at octant index 1 rather than 0. -/
theorem C4_counterexample_round_not_floor :
    spec_round_clamp ((C4apos.x.toQ - (0 : ℚ)) / 1) = 0 ∧
    (C4grownOriginX.map Frc.toQ = some (-1)) ∧
    ((0 : ℚ) + (spec_round_clamp ((C4apos.x.toQ - (0 : ℚ)) / 1) : ℚ) * 1 ≠ -1) ∧
    ((match extend_tree_outside C4tree C4apos C4asize 10 with
      | .ok (_, pfx) => pfx == [1]
      | .error _ => false) = true) := by
  have hx : C4apos.x.toQ = -2 / 5 := by
    show ((-2 : ℤ) : ℚ) / ((5 : ℤ) : ℚ) = -2 / 5
    norm_num
  have hspec : spec_round_clamp ((C4apos.x.toQ - (0 : ℚ)) / 1) = 0 := by
    rw [hx]
    unfold spec_round_clamp
    rw [show ((-2 : ℚ) / 5 - 0) / 1 + 1 / 2 = 1 / 10 by norm_num]
    rw [show ⌊(1 : ℚ) / 10⌋ = 0 by norm_num]
    decide
  refine ⟨hspec, ?_, ?_, by decide⟩
  · have hproj : C4grownOriginX.map (fun f => (f.num, f.den)) = some (-1, 1) := by decide
    cases hres : C4grownOriginX with
    | none => rw [hres] at hproj; exact absurd hproj (by simp)
    | some f =>
      rw [hres] at hproj
      simp only [Option.map_some'] at hproj ⊢
      have hnum : f.num = -1 := by
        have := congrArg (fun o => o.map Prod.fst) hproj
        simpa using this
      have hden : f.den = 1 := by
        have := congrArg (fun o => o.map Prod.snd) hproj
        simpa using this
      rw [Frc.toQ_eq_of f (-1) 1 hnum hden (show (((-1 : ℤ) : ℚ)) / (((1 : ℤ) : ℚ)) = -1 by norm_num)]
  · rw [hspec]
    norm_num

end Oct

namespace Oct

theorem find_wrapRoot_nil (t : OTree) (n : Nat) (nd : NodeD) :
    (t.wrapRoot n nd).find [] = some nd := rfl

theorem find_wrapRoot_cons (t : OTree) (n : Nat) (nd : NodeD) (p : OPath) :
    (t.wrapRoot n nd).find (n :: p) = t.find p := by
  unfold OTree.wrapRoot OTree.find
  rw [List.find?_cons_of_neg _ (by simp)]
  rw [List.find?_map]
  have hpred : ((fun e : OPath × NodeD => e.1 == n :: p) ∘
      (fun e : OPath × NodeD => (n :: e.1, e.2))) = (fun e => e.1 == p) := by
    funext e
    show ((n :: e.1 : OPath) == n :: p) = (e.1 == p)
    by_cases h : e.1 = p
    · subst h
      simp
    · rw [beq_eq_false_iff_ne.mpr h, beq_eq_false_iff_ne.mpr]
      simp [h]
  rw [hpred, Option.map_map]
  rfl

theorem clampI_floor_toQ (a b : Frc) (hb : b.toQ ≠ 0) :
    clampI ((a.div b).floor) (-1) 0 = floor_clamp (a.toQ / b.toQ) := by
  unfold clampI floor_clamp
  rw [Frc.floor_eq, Frc.toQ_div _ _ hb]

/-- The ℚ-level content of one outside growth step: the clamped floor
offsets, the doubled parent dimension, the signed octant index and the
preservation of the whole previous tree below that index. -/
theorem growStep_spec (t : OTree) (cur : NodeD) (apos : FVec)
    (hroot : t.find [] = some cur) (hs : cur.size.toQ ≠ 0) :
    (growStep t apos).2
      = ((-(floor_clamp ((apos.z.toQ - cur.pos.z.toQ) / cur.size.toQ))) * 4
        + (-(floor_clamp ((apos.y.toQ - cur.pos.y.toQ) / cur.size.toQ))) * 2
        + (-(floor_clamp ((apos.x.toQ - cur.pos.x.toQ) / cur.size.toQ)))).toNat ∧
    ∃ nd', (growStep t apos).1.find [] = some nd' ∧
      nd'.pos.x.toQ = cur.pos.x.toQ
        + (floor_clamp ((apos.x.toQ - cur.pos.x.toQ) / cur.size.toQ) : ℚ) * cur.size.toQ ∧
      nd'.pos.y.toQ = cur.pos.y.toQ
        + (floor_clamp ((apos.y.toQ - cur.pos.y.toQ) / cur.size.toQ) : ℚ) * cur.size.toQ ∧
      nd'.pos.z.toQ = cur.pos.z.toQ
        + (floor_clamp ((apos.z.toQ - cur.pos.z.toQ) / cur.size.toQ) : ℚ) * cur.size.toQ ∧
      nd'.size.toQ = 2 * cur.size.toQ ∧ nd'.ents = [] ∧
      (∀ p nd0, t.find p = some nd0 →
        (growStep t apos).1.find ((growStep t apos).2 :: p) = some nd0) := by
  have hx := clampI_floor_toQ (apos.x.sub cur.pos.x) cur.size hs
  have hy := clampI_floor_toQ (apos.y.sub cur.pos.y) cur.size hs
  have hz := clampI_floor_toQ (apos.z.sub cur.pos.z) cur.size hs
  rw [Frc.toQ_sub] at hx hy hz
  unfold growStep
  rw [hroot]
  simp only
  refine ⟨by rw [hx, hy, hz], ⟨_, find_wrapRoot_nil _ _ _, ?_, ?_, ?_, ?_, rfl, ?_⟩⟩
  · show ((cur.pos.x.add ((Frc.ofInt _).mul cur.size))).toQ = _
    rw [Frc.toQ_add, Frc.toQ_mul, Frc.toQ_ofInt, hx]
  · show ((cur.pos.y.add ((Frc.ofInt _).mul cur.size))).toQ = _
    rw [Frc.toQ_add, Frc.toQ_mul, Frc.toQ_ofInt, hy]
  · show ((cur.pos.z.add ((Frc.ofInt _).mul cur.size))).toQ = _
    rw [Frc.toQ_add, Frc.toQ_mul, Frc.toQ_ofInt, hz]
  · show ((cur.size.mul (Frc.ofInt 2))).toQ = _
    rw [Frc.toQ_mul, Frc.toQ_ofInt]
    push_cast
    ring
  · intro p nd0 hfind
    rw [find_wrapRoot_cons]
    exact hfind

/-- The heap after n outside growth steps. -/
def iterGrow (apos : FVec) : Nat → OTree → OTree
  | 0, t => t
  | n + 1, t => iterGrow apos n (growStep t apos).1

theorem growStep_preserves_root (t : OTree) (cur : NodeD) (apos : FVec)
    (hroot : t.find [] = some cur) :
    ∃ nd', (growStep t apos).1.find [] = some nd' := by
  unfold growStep
  rw [hroot]
  exact ⟨_, find_wrapRoot_nil _ _ _⟩

end Oct

namespace Oct

theorem extend_outside_error_char (apos : FVec) (asize : Frc) :
    ∀ (fuel : Nat) (t : OTree), (∃ cur, t.find [] = some cur) →
      ∀ e, extend_tree_outside t apos asize fuel = .error e →
      e = iterGrow apos fuel t ∧
      ∀ j, 1 ≤ j → j ≤ fuel → fitsAt (iterGrow apos j t) [] apos asize = false := by
  intro fuel
  induction fuel with
  | zero =>
    intro t _ e h
    refine ⟨?_, fun j hj1 hj0 => absurd (le_trans hj1 hj0) (by norm_num)⟩
    unfold extend_tree_outside at h
    exact (Except.error.injEq _ _).mp h.symm |>.symm ▸ rfl
  | succ n ih =>
    intro t hroot e h
    obtain ⟨cur, hcur⟩ := hroot
    obtain ⟨nd1, hnd1⟩ := growStep_preserves_root t cur apos hcur
    unfold extend_tree_outside at h
    simp only at h
    rw [hnd1] at h
    simp only at h
    by_cases hfit : aabb_in_space apos asize nd1.pos nd1.cube
    · rw [if_pos hfit] at h
      exact absurd h (by simp)
    · rw [if_neg hfit] at h
      have hone : fitsAt (growStep t apos).1 [] apos asize = false := by
        unfold fitsAt
        rw [hnd1]
        exact Bool.eq_false_iff.mpr hfit
      cases hrec : extend_tree_outside (growStep t apos).1 apos asize n with
      | ok v =>
        rw [hrec] at h
        exact absurd h (by simp)
      | error e1 =>
        rw [hrec] at h
        have he : e = e1 := by
          have := (Except.error.injEq _ _).mp h.symm
          exact this
        obtain ⟨hiter, hfits⟩ := ih (growStep t apos).1 ⟨nd1, hnd1⟩ e1 hrec
        subst he
        constructor
        · exact hiter
        · intro j hj1 hjn
          match j, hj1 with
          | 1, _ =>
            show fitsAt (iterGrow apos 0 (growStep t apos).1) [] apos asize = false
            exact hone
          | (m + 2), _ =>
            have : fitsAt (iterGrow apos (m + 1) (growStep t apos).1) [] apos asize = false :=
              hfits (m + 1) (by omega) (by omega)
            exact this

theorem extend_outside_ok_char (apos : FVec) (asize : Frc) :
    ∀ (fuel : Nat) (t : OTree), (∃ cur, t.find [] = some cur) →
      ∀ t' pfx, extend_tree_outside t apos asize fuel = .ok (t', pfx) →
      ∃ j, 1 ≤ j ∧ j ≤ fuel ∧ t' = iterGrow apos j t ∧
        fitsAt t' [] apos asize = true ∧
        ∀ i, 1 ≤ i → i < j → fitsAt (iterGrow apos i t) [] apos asize = false := by
  intro fuel
  induction fuel with
  | zero =>
    intro t _ t' pfx h
    unfold extend_tree_outside at h
    exact absurd h (by simp)
  | succ n ih =>
    intro t hroot t' pfx h
    obtain ⟨cur, hcur⟩ := hroot
    obtain ⟨nd1, hnd1⟩ := growStep_preserves_root t cur apos hcur
    unfold extend_tree_outside at h
    simp only at h
    rw [hnd1] at h
    simp only at h
    by_cases hfit : aabb_in_space apos asize nd1.pos nd1.cube
    · rw [if_pos hfit] at h
      have ht' : t' = (growStep t apos).1 := by
        have := (Except.ok.injEq _ _).mp h.symm
        exact congrArg Prod.fst this
      refine ⟨1, le_refl 1, by omega, ht', ?_, fun i hi1 hij => absurd (lt_of_le_of_lt hi1 hij) (by norm_num)⟩
      unfold fitsAt
      rw [ht', hnd1]
      exact hfit
    · rw [if_neg hfit] at h
      have hone : fitsAt (growStep t apos).1 [] apos asize = false := by
        unfold fitsAt
        rw [hnd1]
        exact Bool.eq_false_iff.mpr hfit
      cases hrec : extend_tree_outside (growStep t apos).1 apos asize n with
      | error e1 =>
        rw [hrec] at h
        exact absurd h (by simp)
      | ok v =>
        rw [hrec] at h
        have hv : t' = v.1 := by
          have := (Except.ok.injEq _ _).mp h.symm
          exact congrArg Prod.fst this
        obtain ⟨j, hj1, hjn, hiter, hfits, hmin⟩ := ih (growStep t apos).1 ⟨nd1, hnd1⟩ v.1 v.2 (by rw [hrec])
        refine ⟨j + 1, by omega, by omega, ?_, by rw [hv]; exact hfits, ?_⟩
        · rw [hv, hiter]
          rfl
        · intro i hi1 hij
          match i, hi1 with
          | 1, _ =>
            exact hone
          | (m + 2), _ =>
            exact hmin (m + 1) (by omega) (by omega)

/-- C4 amended: outside growth uses the floor (not round) of
(aabb.pos − cur.pos)/cur.size, clamped to [−1, 0]: each growth step
wraps the current absolute root in a parent of twice the size whose
origin is offset by that bit-vector scaled by cur.size and places the
old root (with the whole previous heap) at the correspondingly signed
octant index; the loop repeats until the AABB fits, and if it still
does not fit after the outside depth budget is exhausted the error
carries the last-grown absolute root. -/
theorem C4_amended_outside_growth_uses_floor (t : OTree) (cur : NodeD) (apos : FVec)
    (asize : Frc) (fuel : Nat)
    (hroot : t.find [] = some cur) (hs : cur.size.toQ ≠ 0) :
    ((growStep t apos).2
      = ((-(floor_clamp ((apos.z.toQ - cur.pos.z.toQ) / cur.size.toQ))) * 4
        + (-(floor_clamp ((apos.y.toQ - cur.pos.y.toQ) / cur.size.toQ))) * 2
        + (-(floor_clamp ((apos.x.toQ - cur.pos.x.toQ) / cur.size.toQ)))).toNat ∧
     ∃ nd', (growStep t apos).1.find [] = some nd' ∧
      nd'.pos.x.toQ = cur.pos.x.toQ
        + (floor_clamp ((apos.x.toQ - cur.pos.x.toQ) / cur.size.toQ) : ℚ) * cur.size.toQ ∧
      nd'.pos.y.toQ = cur.pos.y.toQ
        + (floor_clamp ((apos.y.toQ - cur.pos.y.toQ) / cur.size.toQ) : ℚ) * cur.size.toQ ∧
      nd'.pos.z.toQ = cur.pos.z.toQ
        + (floor_clamp ((apos.z.toQ - cur.pos.z.toQ) / cur.size.toQ) : ℚ) * cur.size.toQ ∧
      nd'.size.toQ = 2 * cur.size.toQ ∧ nd'.ents = [] ∧
      (∀ p nd0, t.find p = some nd0 →
        (growStep t apos).1.find ((growStep t apos).2 :: p) = some nd0)) ∧
    (∀ e, extend_tree_outside t apos asize fuel = .error e →
      e = iterGrow apos fuel t ∧
      ∀ j, 1 ≤ j → j ≤ fuel → fitsAt (iterGrow apos j t) [] apos asize = false) ∧
    (∀ t' pfx, extend_tree_outside t apos asize fuel = .ok (t', pfx) →
      ∃ j, 1 ≤ j ∧ j ≤ fuel ∧ t' = iterGrow apos j t ∧
        fitsAt t' [] apos asize = true ∧
        ∀ i, 1 ≤ i → i < j → fitsAt (iterGrow apos i t) [] apos asize = false) :=
  ⟨growStep_spec t cur apos hroot hs,
   fun e he => extend_outside_error_char apos asize fuel t ⟨cur, hroot⟩ e he,
   fun t' pfx hok => extend_outside_ok_char apos asize fuel t ⟨cur, hroot⟩ t' pfx hok⟩

/-- Witness for C4_amended_outside_growth_uses_floor at the concrete
C4 scenario (unit root, AABB at x = −2/5): the old root is placed at
the signed octant index computed from the clamped floors. -/
theorem C4_amended_outside_growth_uses_floor_witness :
    C4tree.find [] = some ⟨FVec.ofInts 0 0 0, Frc.ofInt 1, [], false⟩ ∧
    (Frc.ofInt 1).toQ ≠ 0 ∧
    (growStep C4tree C4apos).2
      = ((-(floor_clamp ((C4apos.z.toQ - (FVec.ofInts 0 0 0).z.toQ) / (Frc.ofInt 1).toQ))) * 4
        + (-(floor_clamp ((C4apos.y.toQ - (FVec.ofInts 0 0 0).y.toQ) / (Frc.ofInt 1).toQ))) * 2
        + (-(floor_clamp ((C4apos.x.toQ - (FVec.ofInts 0 0 0).x.toQ) / (Frc.ofInt 1).toQ)))).toNat := by
  have hs : (Frc.ofInt 1).toQ ≠ 0 := by
    rw [Frc.toQ_ofInt]
    norm_num
  exact ⟨rfl, hs,
    (C4_amended_outside_growth_uses_floor C4tree ⟨FVec.ofInts 0 0 0, Frc.ofInt 1, [], false⟩
      C4apos C4asize 2 rfl hs).1.1⟩

end Oct

namespace Frc

theorem num_nonneg_of_toQ (a : Frc) (h : 0 ≤ a.toQ) : 0 ≤ a.num := by
  unfold toQ at h
  by_contra hneg
  push_neg at hneg
  have h1 : (a.num : ℚ) < 0 := by exact_mod_cast hneg
  have := div_neg_of_neg_of_pos h1 a.den_q_pos
  linarith

theorem trunc_eq_floor_of_nonneg (a : Frc) (h : 0 ≤ a.toQ) : a.trunc = ⌊a.toQ⌋ := by
  have hnum : 0 ≤ a.num := num_nonneg_of_toQ a h
  unfold trunc
  rw [← floor_eq]
  unfold floor
  rw [Int.tdiv_eq_ediv hnum (le_of_lt a.dpos)]
  rw [Int.fdiv_eq_ediv _ (le_of_lt a.dpos)]

end Frc

namespace Oct

/-- A ℚ dimension: position and size. -/
abbrev QDim := (ℚ × ℚ × ℚ) × ℚ

def nodeDimQ (nd : NodeD) : QDim := ((nd.pos.x.toQ, nd.pos.y.toQ, nd.pos.z.toQ), nd.size.toQ)

/-- The canonical child dimension: child i at offset
((i&1), (i>>1)&1, (i>>2)&1) · size/2, half the edge. -/
def childDimQ (d : QDim) (i : Nat) : QDim :=
  ((d.1.1 + (i % 2 : Nat) * (d.2 / 2),
    d.1.2.1 + (i / 2 % 2 : Nat) * (d.2 / 2),
    d.1.2.2 + (i / 4 % 2 : Nat) * (d.2 / 2)), d.2 / 2)

/-- The canonical dimension at a path below a root dimension. -/
def canonDimQ (d : QDim) : OPath → QDim
  | [] => d
  | i :: rest => canonDimQ (childDimQ d i) rest

/-- Half-open membership of a point in a ℚ dimension's cube. -/
def inDimQ (p : FVec) (d : QDim) : Prop :=
  d.1.1 ≤ p.x.toQ ∧ p.x.toQ < d.1.1 + d.2 ∧
  d.1.2.1 ≤ p.y.toQ ∧ p.y.toQ < d.1.2.1 + d.2 ∧
  d.1.2.2 ≤ p.z.toQ ∧ p.z.toQ < d.1.2.2 + d.2

theorem canonDimQ_append (d : QDim) (path : OPath) (i : Nat) :
    canonDimQ d (path ++ [i]) = childDimQ (canonDimQ d path) i := by
  induction path generalizing d with
  | nil => rfl
  | cons j rest ih =>
    show canonDimQ (childDimQ d j) (rest ++ [i]) = _
    exact ih (childDimQ d j)

theorem canonDimQ_size_pos (d : QDim) (hd : 0 < d.2) :
    ∀ path : OPath, 0 < (canonDimQ d path).2 := by
  intro path
  induction path generalizing d with
  | nil => exact hd
  | cons j rest ih =>
    exact ih (childDimQ d j) (by exact half_pos hd)

theorem point_in_space_iff (p spos ssize : FVec) :
    point_in_space p spos ssize = true ↔
      (spos.x.toQ ≤ p.x.toQ ∧ p.x.toQ < spos.x.toQ + ssize.x.toQ) ∧
      (spos.y.toQ ≤ p.y.toQ ∧ p.y.toQ < spos.y.toQ + ssize.y.toQ) ∧
      (spos.z.toQ ≤ p.z.toQ ∧ p.z.toQ < spos.z.toQ + ssize.z.toQ) := by
  unfold point_in_space fge
  simp only [Bool.and_eq_true, Frc.ble_iff, Frc.blt_iff, Frc.toQ_add]
  tauto

theorem find_mem (t : OTree) (path : OPath) (nd : NodeD)
    (h : t.find path = some nd) : (path, nd) ∈ t.nodes := by
  unfold OTree.find at h
  cases hf : t.nodes.find? (fun e => e.1 == path) with
  | none => rw [hf] at h; exact absurd h (by simp)
  | some e =>
    rw [hf] at h
    have hmem := List.mem_of_find?_eq_some hf
    have hpred := List.find?_some hf
    have hkey : e.1 = path := by
      have hb : (e.1 == path) = true := hpred
      exact eq_of_beq hb
    have hval : e.2 = nd := by
      simpa using h
    rw [← hkey, ← hval]
    exact hmem

/-- The longest path in the heap. -/
def maxKeyLen (t : OTree) : Nat := (t.nodes.map (fun e => e.1.length)).foldr Nat.max 0

theorem le_foldr_max (l : List Nat) : ∀ x ∈ l, x ≤ l.foldr Nat.max 0 := by
  induction l with
  | nil => intro x hx; exact absurd hx (by simp)
  | cons a tl ih =>
    intro x hx
    rcases List.mem_cons.mp hx with h | h
    · subst h
      exact Nat.le_max_left _ _ |>.trans (le_of_eq rfl)
    · exact le_trans (ih x h) (Nat.le_max_right _ _)

theorem find_len_le (t : OTree) (path : OPath) (nd : NodeD)
    (h : t.find path = some nd) : path.length ≤ maxKeyLen t := by
  have hmem := find_mem t path nd h
  exact le_foldr_max _ _ (List.mem_map.mpr ⟨(path, nd), hmem, rfl⟩)

end Oct

namespace Oct

theorem floor_bit_step (px dx s : ℚ) (hs : 0 < s) (h1 : dx ≤ px) (h2 : px < dx + s) :
    0 ≤ (px - dx) * (2 / s) ∧
    (⌊(px - dx) * (2 / s)⌋ = 0 ∨ ⌊(px - dx) * (2 / s)⌋ = 1) ∧
    dx + (⌊(px - dx) * (2 / s)⌋ : ℚ) * (s / 2) ≤ px ∧
    px < dx + (⌊(px - dx) * (2 / s)⌋ : ℚ) * (s / 2) + s / 2 := by
  set q : ℚ := (px - dx) * (2 / s) with hq
  have hsne : s ≠ 0 := ne_of_gt hs
  have hq0 : 0 ≤ q := mul_nonneg (by linarith) (by positivity)
  have hq2 : q < 2 := by
    rw [hq, mul_div_assoc']
    rw [div_lt_iff₀ hs]
    linarith
  have hb0 : 0 ≤ ⌊q⌋ := Int.floor_nonneg.mpr hq0
  have hb2 : ⌊q⌋ < 2 := Int.floor_lt.mpr (by exact_mod_cast hq2)
  have hqs : q * (s / 2) = px - dx := by
    rw [hq]
    field_simp
  have hlo : (⌊q⌋ : ℚ) * (s / 2) ≤ px - dx := by
    rw [← hqs]
    exact mul_le_mul_of_nonneg_right (Int.floor_le q) (by positivity)
  have hhi : px - dx < ((⌊q⌋ : ℚ) + 1) * (s / 2) := by
    rw [← hqs]
    exact mul_lt_mul_of_pos_right (Int.lt_floor_add_one q) (by positivity)
  refine ⟨hq0, by omega, by linarith, by nlinarith⟩

theorem toQ_indBit (a b c : Frc) (hc : c.toQ ≠ 0) :
    ((a.sub b).mul ((Frc.ofInt 2).div c)).toQ = (a.toQ - b.toQ) * (2 / c.toQ) := by
  rw [Frc.toQ_mul, Frc.toQ_sub, Frc.toQ_div _ _ hc, Frc.toQ_ofInt]
  norm_num

theorem half_toQ (s : Frc) : (s.div (Frc.ofInt 2)).toQ = s.toQ / 2 := by
  rw [Frc.toQ_div, Frc.toQ_ofInt]
  · norm_num
  · rw [Frc.toQ_ofInt]
    norm_num

/-- The child octant of a point at a node, as the sources compute it
twice over: from the running dimension in node_at_pos and from the
stored node dimension in extend_tree_inside_to_fit_up_to_depth. -/
def idxAt (p : FVec) (nd : NodeD) : Nat :=
  ((indBits p nd.pos nd.size).2.2 * 4 + (indBits p nd.pos nd.size).2.1 * 2
    + (indBits p nd.pos nd.size).1).toNat

theorem node_at_pos_go_spec (t : OTree) (p : FVec) (rd : QDim)
    (hwf : ∀ pr ∈ t.nodes, nodeDimQ pr.2 = canonDimQ rd pr.1)
    (hrpos : 0 < rd.2) :
    ∀ (fuel : Nat) (path : OPath) (dpos : FVec) (dsize : Frc) (nd : NodeD),
      t.find path = some nd →
      (dpos.x.toQ, dpos.y.toQ, dpos.z.toQ) = (canonDimQ rd path).1 →
      dsize.toQ = (canonDimQ rd path).2 →
      inDimQ p (canonDimQ rd path) →
      maxKeyLen t < fuel + path.length →
      ∃ rpath i nd2, node_at_pos_go t p path dpos dsize fuel = some (rpath, i) ∧
        t.find rpath = some nd2 ∧
        point_in_space p nd2.pos nd2.cube = true ∧
        t.find (rpath ++ [i]) = none ∧
        path <+: rpath ∧
        ∀ q o, q ++ [o] <+: rpath ++ [i] → path.length ≤ q.length →
          ∃ ndq, t.find q = some ndq ∧ o = idxAt p ndq := by
  intro fuel
  induction fuel with
  | zero =>
    intro path dpos dsize nd hfind _ _ _ hfuel
    have := find_len_le t path nd hfind
    omega
  | succ n ih =>
    intro path dpos dsize nd hfind hdpos hdsize hin hfuel
    have hs : 0 < (canonDimQ rd path).2 := canonDimQ_size_pos rd hrpos path
    have hsne : (canonDimQ rd path).2 ≠ 0 := ne_of_gt hs
    have hdx : dpos.x.toQ = (canonDimQ rd path).1.1 := congrArg Prod.fst hdpos
    have hdy : dpos.y.toQ = (canonDimQ rd path).1.2.1 := by
      have := congrArg Prod.snd hdpos
      exact congrArg Prod.fst this
    have hdz : dpos.z.toQ = (canonDimQ rd path).1.2.2 := by
      have := congrArg Prod.snd hdpos
      exact congrArg Prod.snd this
    obtain ⟨hx1, hx2, hy1, hy2, hz1, hz2⟩ := hin
    have hdsne : dsize.toQ ≠ 0 := by rw [hdsize]; exact hsne
    have hfx := floor_bit_step p.x.toQ (canonDimQ rd path).1.1 (canonDimQ rd path).2 hs hx1 hx2
    have hfy := floor_bit_step p.y.toQ (canonDimQ rd path).1.2.1 (canonDimQ rd path).2 hs hy1 hy2
    have hfz := floor_bit_step p.z.toQ (canonDimQ rd path).1.2.2 (canonDimQ rd path).2 hs hz1 hz2
    set bx : ℤ := ⌊(p.x.toQ - (canonDimQ rd path).1.1) * (2 / (canonDimQ rd path).2)⌋ with hbxd
    set by' : ℤ := ⌊(p.y.toQ - (canonDimQ rd path).1.2.1) * (2 / (canonDimQ rd path).2)⌋ with hbyd
    set bz : ℤ := ⌊(p.z.toQ - (canonDimQ rd path).1.2.2) * (2 / (canonDimQ rd path).2)⌋ with hbzd
    have hbits : indBits p dpos dsize = (bx, by', bz) := by
      show (((p.x.sub dpos.x).mul ((Frc.ofInt 2).div dsize)).trunc,
            ((p.y.sub dpos.y).mul ((Frc.ofInt 2).div dsize)).trunc,
            ((p.z.sub dpos.z).mul ((Frc.ofInt 2).div dsize)).trunc) = (bx, by', bz)
      have e1 : ((p.x.sub dpos.x).mul ((Frc.ofInt 2).div dsize)).toQ
          = (p.x.toQ - (canonDimQ rd path).1.1) * (2 / (canonDimQ rd path).2) := by
        rw [toQ_indBit _ _ _ hdsne, hdx, hdsize]
      have e2 : ((p.y.sub dpos.y).mul ((Frc.ofInt 2).div dsize)).toQ
          = (p.y.toQ - (canonDimQ rd path).1.2.1) * (2 / (canonDimQ rd path).2) := by
        rw [toQ_indBit _ _ _ hdsne, hdy, hdsize]
      have e3 : ((p.z.sub dpos.z).mul ((Frc.ofInt 2).div dsize)).toQ
          = (p.z.toQ - (canonDimQ rd path).1.2.2) * (2 / (canonDimQ rd path).2) := by
        rw [toQ_indBit _ _ _ hdsne, hdz, hdsize]
      rw [Frc.trunc_eq_floor_of_nonneg ((p.x.sub dpos.x).mul ((Frc.ofInt 2).div dsize))
            (by rw [e1]; exact hfx.1),
          Frc.trunc_eq_floor_of_nonneg ((p.y.sub dpos.y).mul ((Frc.ofInt 2).div dsize))
            (by rw [e2]; exact hfy.1),
          Frc.trunc_eq_floor_of_nonneg ((p.z.sub dpos.z).mul ((Frc.ofInt 2).div dsize))
            (by rw [e3]; exact hfz.1),
          e1, e2, e3]
    have hbxr : bx = 0 ∨ bx = 1 := hfx.2.1
    have hbyr : by' = 0 ∨ by' = 1 := hfy.2.1
    have hbzr : bz = 0 ∨ bz = 1 := hfz.2.1
    have hcir : ¬ (bz * 4 + by' * 2 + bx < 0 ∨ 7 < bz * 4 + by' * 2 + bx) := by omega
    have hhalf : (dsize.div (Frc.ofInt 2)).toQ = (canonDimQ rd path).2 / 2 := by
      rw [half_toQ, hdsize]
    set nn : Nat := (bz * 4 + by' * 2 + bx).toNat with hnn
    have hchild : childDimQ (canonDimQ rd path) nn
        = (((canonDimQ rd path).1.1 + (bx : ℚ) * ((canonDimQ rd path).2 / 2),
            (canonDimQ rd path).1.2.1 + (by' : ℚ) * ((canonDimQ rd path).2 / 2),
            (canonDimQ rd path).1.2.2 + (bz : ℚ) * ((canonDimQ rd path).2 / 2)),
           (canonDimQ rd path).2 / 2) := by
      rcases hbxr with h1 | h1 <;> rcases hbyr with h2 | h2 <;> rcases hbzr with h3 | h3 <;>
        rw [h1, h2, h3] at hnn ⊢ <;>
        simp only [hnn] <;>
        unfold childDimQ <;>
        norm_num [show Int.toNat 0 = 0 from rfl, show Int.toNat 1 = 1 from rfl,
          show Int.toNat 2 = 2 from rfl, show Int.toNat 3 = 3 from rfl,
          show Int.toNat 4 = 4 from rfl, show Int.toNat 5 = 5 from rfl,
          show Int.toNat 6 = 6 from rfl, show Int.toNat 7 = 7 from rfl]
    have hstep : node_at_pos_go t p path dpos dsize (n + 1)
        = (match t.find (path ++ [nn]) with
          | some _ => node_at_pos_go t p (path ++ [nn])
              (FVec.add dpos (FVec.scale ⟨Frc.ofInt bx, Frc.ofInt by', Frc.ofInt bz⟩
                (dsize.div (Frc.ofInt 2)))) (dsize.div (Frc.ofInt 2)) n
          | none => some (path, nn)) := by
      show (let (ix, iy, iz) := indBits p dpos dsize
            let ci : Int := iz * 4 + iy * 2 + ix
            if ci < 0 ∨ 7 < ci then none
            else
              let n0 : Nat := ci.toNat
              let half := dsize.div (Frc.ofInt 2)
              let dpos' := FVec.add dpos (FVec.scale ⟨Frc.ofInt ix, Frc.ofInt iy, Frc.ofInt iz⟩ half)
              match t.find (path ++ [n0]) with
              | some _ => node_at_pos_go t p (path ++ [n0]) dpos' half n
              | none => some (path, n0)) = _
      rw [hbits]
      simp only [if_neg hcir]
    have hdim' : (FVec.add dpos (FVec.scale ⟨Frc.ofInt bx, Frc.ofInt by', Frc.ofInt bz⟩
        (dsize.div (Frc.ofInt 2)))).x.toQ = (childDimQ (canonDimQ rd path) nn).1.1 ∧
        (FVec.add dpos (FVec.scale ⟨Frc.ofInt bx, Frc.ofInt by', Frc.ofInt bz⟩
        (dsize.div (Frc.ofInt 2)))).y.toQ = (childDimQ (canonDimQ rd path) nn).1.2.1 ∧
        (FVec.add dpos (FVec.scale ⟨Frc.ofInt bx, Frc.ofInt by', Frc.ofInt bz⟩
        (dsize.div (Frc.ofInt 2)))).z.toQ = (childDimQ (canonDimQ rd path) nn).1.2.2 := by
      rw [hchild]
      refine ⟨?_, ?_, ?_⟩ <;>
        · show ((_ : Frc).add ((_ : Frc).mul _)).toQ = _
          rw [Frc.toQ_add, Frc.toQ_mul, Frc.toQ_ofInt, hhalf]
          first
            | rw [hdx]
            | rw [hdy]
            | rw [hdz]
    have hin' : inDimQ p (childDimQ (canonDimQ rd path) nn) := by
      rw [hchild]
      exact ⟨hfx.2.2.1, hfx.2.2.2, hfy.2.2.1, hfy.2.2.2, hfz.2.2.1, hfz.2.2.2⟩
    have hnd : nodeDimQ nd = canonDimQ rd path := hwf (path, nd) (find_mem t path nd hfind)
    have hcx : nd.pos.x.toQ = (canonDimQ rd path).1.1 := by
      have := congrArg (fun d : QDim => d.1.1) hnd
      exact this
    have hcy : nd.pos.y.toQ = (canonDimQ rd path).1.2.1 := by
      have := congrArg (fun d : QDim => d.1.2.1) hnd
      exact this
    have hcz : nd.pos.z.toQ = (canonDimQ rd path).1.2.2 := by
      have := congrArg (fun d : QDim => d.1.2.2) hnd
      exact this
    have hcs : nd.size.toQ = (canonDimQ rd path).2 := by
      have := congrArg (fun d : QDim => d.2) hnd
      exact this
    have hcsne : nd.size.toQ ≠ 0 := by rw [hcs]; exact hsne
    have hbitsS : indBits p nd.pos nd.size = (bx, by', bz) := by
      show (((p.x.sub nd.pos.x).mul ((Frc.ofInt 2).div nd.size)).trunc,
            ((p.y.sub nd.pos.y).mul ((Frc.ofInt 2).div nd.size)).trunc,
            ((p.z.sub nd.pos.z).mul ((Frc.ofInt 2).div nd.size)).trunc) = (bx, by', bz)
      have e1 : ((p.x.sub nd.pos.x).mul ((Frc.ofInt 2).div nd.size)).toQ
          = (p.x.toQ - (canonDimQ rd path).1.1) * (2 / (canonDimQ rd path).2) := by
        rw [toQ_indBit _ _ _ hcsne, hcx, hcs]
      have e2 : ((p.y.sub nd.pos.y).mul ((Frc.ofInt 2).div nd.size)).toQ
          = (p.y.toQ - (canonDimQ rd path).1.2.1) * (2 / (canonDimQ rd path).2) := by
        rw [toQ_indBit _ _ _ hcsne, hcy, hcs]
      have e3 : ((p.z.sub nd.pos.z).mul ((Frc.ofInt 2).div nd.size)).toQ
          = (p.z.toQ - (canonDimQ rd path).1.2.2) * (2 / (canonDimQ rd path).2) := by
        rw [toQ_indBit _ _ _ hcsne, hcz, hcs]
      rw [Frc.trunc_eq_floor_of_nonneg ((p.x.sub nd.pos.x).mul ((Frc.ofInt 2).div nd.size))
            (by rw [e1]; exact hfx.1),
          Frc.trunc_eq_floor_of_nonneg ((p.y.sub nd.pos.y).mul ((Frc.ofInt 2).div nd.size))
            (by rw [e2]; exact hfy.1),
          Frc.trunc_eq_floor_of_nonneg ((p.z.sub nd.pos.z).mul ((Frc.ofInt 2).div nd.size))
            (by rw [e3]; exact hfz.1),
          e1, e2, e3]
    have hidx : idxAt p nd = nn := by
      unfold idxAt
      rw [hbitsS, hnn]
    rcases hcf : t.find (path ++ [nn]) with _ | c
    · refine ⟨path, nn, nd, ?_, hfind, ?_, hcf, List.prefix_refl path, ?_⟩
      · rw [hstep, hcf]
      · rw [point_in_space_iff]
        unfold NodeD.cube
        refine ⟨⟨?_, ?_⟩, ⟨?_, ?_⟩, ⟨?_, ?_⟩⟩
        · rw [hcx]
          exact hx1
        · show p.x.toQ < nd.pos.x.toQ + nd.size.toQ
          rw [hcx, hcs]
          exact hx2
        · rw [hcy]
          exact hy1
        · show p.y.toQ < nd.pos.y.toQ + nd.size.toQ
          rw [hcy, hcs]
          exact hy2
        · rw [hcz]
          exact hz1
        · show p.z.toQ < nd.pos.z.toQ + nd.size.toQ
          rw [hcz, hcs]
          exact hz2
      · intro q o hqo hlen
        have hlen2 : q.length = path.length := by
          have := hqo.length_le
          simp at this
          omega
        have heq : q ++ [o] = path ++ [nn] := hqo.eq_of_length (by simp [hlen2])
        obtain ⟨hq', ho⟩ := List.append_inj heq (by simp [hlen2])
        have ho' : o = nn := by simpa using ho
        subst hq'
        exact ⟨nd, hfind, by rw [ho', hidx]⟩
    · have hrec := ih (path ++ [nn])
        (FVec.add dpos (FVec.scale ⟨Frc.ofInt bx, Frc.ofInt by', Frc.ofInt bz⟩
          (dsize.div (Frc.ofInt 2)))) (dsize.div (Frc.ofInt 2)) c hcf
        (by rw [canonDimQ_append]
            exact Prod.ext (hdim'.1) (Prod.ext hdim'.2.1 hdim'.2.2))
        (by rw [canonDimQ_append, hchild, hhalf])
        (by rw [canonDimQ_append]; exact hin')
        (by rw [List.length_append]; simpa using by omega)
      obtain ⟨rpath, i, nd2, hgo, hf2, hpt, hnone, hpre, hchain⟩ := hrec
      refine ⟨rpath, i, nd2, by rw [hstep, hcf]; exact hgo, hf2, hpt, hnone,
        (List.prefix_append path [nn]).trans hpre, ?_⟩
      intro q o hqo hlen
      rcases Nat.lt_or_ge q.length (path.length + 1) with hq | hq
      · have hlen2 : q.length = path.length := by omega
        have hp2 : path ++ [nn] <+: rpath ++ [i] := hpre.trans (List.prefix_append rpath [i])
        have hqp : q ++ [o] <+: path ++ [nn] :=
          List.prefix_of_prefix_length_le hqo hp2 (by simp [hlen2])
        have heq : q ++ [o] = path ++ [nn] := hqp.eq_of_length (by simp [hlen2])
        obtain ⟨hq', ho⟩ := List.append_inj heq (by simp [hlen2])
        have ho' : o = nn := by simpa using ho
        subst hq'
        exact ⟨nd, hfind, by rw [ho', hidx]⟩
      · exact hchain q o hqo (by simp only [List.length_append, List.length_singleton]; omega)

/-- C8: on a heap whose nodes carry the canonical dimensions determined
by the absolute root's dimension `rd` (as Octree.set_child computes
them) with positive root size, for every point p inside the root's
half-open box, node_at_pos returns a non-null position (rpath, i): the
node at rpath exists in the heap, p lies inside that node's cube read
cubically from its size (point_in_space with NodeD.cube), and the child
slot i of that node holds no subtree.  The embedding is a pure function
of the heap, so the call modifies no node. -/
theorem C8_node_at_pos_descends_to_containing_leaf_slot
    (t : OTree) (p : FVec) (rd : QDim) (root : NodeD)
    (hwf : ∀ pr ∈ t.nodes, nodeDimQ pr.2 = canonDimQ rd pr.1)
    (hroot : t.find [] = some root)
    (hrpos : 0 < rd.2)
    (hp : point_in_space p root.pos root.cube = true) :
    ∃ rpath i nd2, node_at_pos t p = some (rpath, i) ∧
      t.find rpath = some nd2 ∧
      point_in_space p nd2.pos nd2.cube = true ∧
      t.find (rpath ++ [i]) = none := by
  have hrootdim : nodeDimQ root = rd := by
    have h := hwf ([], root) (find_mem t [] root hroot)
    simpa [canonDimQ] using h
  have hdpos : (root.pos.x.toQ, root.pos.y.toQ, root.pos.z.toQ) = (canonDimQ rd []).1 :=
    congrArg Prod.fst hrootdim
  have hdsize : root.size.toQ = (canonDimQ rd []).2 :=
    congrArg Prod.snd hrootdim
  have hin : inDimQ p (canonDimQ rd []) := by
    have hiff := (point_in_space_iff p root.pos root.cube).mp hp
    have hx : root.pos.x.toQ = rd.1.1 := congrArg (fun d => d.1.1) hrootdim
    have hy : root.pos.y.toQ = rd.1.2.1 := congrArg (fun d => d.1.2.1) hrootdim
    have hz : root.pos.z.toQ = rd.1.2.2 := congrArg (fun d => d.1.2.2) hrootdim
    have hs : root.size.toQ = rd.2 := congrArg Prod.snd hrootdim
    have hcx : root.cube.x = root.size := rfl
    have hcy : root.cube.y = root.size := rfl
    have hcz : root.cube.z = root.size := rfl
    rw [hcx, hcy, hcz, hx, hy, hz, hs] at hiff
    exact ⟨hiff.1.1, hiff.1.2, hiff.2.1.1, hiff.2.1.2, hiff.2.2.1, hiff.2.2.2⟩
  have hfuel : maxKeyLen t < t.fuelFor + ([] : OPath).length := by
    show maxKeyLen t < maxKeyLen t + 1 + 0
    omega
  obtain ⟨rpath, i, nd2, hgo, hf2, hpt, hnone, -, -⟩ :=
    node_at_pos_go_spec t p rd hwf hrpos t.fuelFor [] root.pos root.size root
      hroot hdpos hdsize hin hfuel
  refine ⟨rpath, i, nd2, ?_, hf2, hpt, hnone⟩
  unfold node_at_pos
  rw [hroot]
  simp only [hp, if_true]
  exact hgo

/-- Witness for C8 at the concrete one-node unit tree and the origin. -/
theorem C8_node_at_pos_descends_to_containing_leaf_slot_witness :
    C4tree.find [] = some ⟨FVec.ofInts 0 0 0, Frc.ofInt 1, [], false⟩ ∧
    (0 : ℚ) < (((0, 0, 0), 1) : QDim).2 ∧
    point_in_space (FVec.ofInts 0 0 0) (FVec.ofInts 0 0 0)
      (NodeD.cube ⟨FVec.ofInts 0 0 0, Frc.ofInt 1, [], false⟩) = true ∧
    ∃ rpath i nd2, node_at_pos C4tree (FVec.ofInts 0 0 0) = some (rpath, i) ∧
      C4tree.find rpath = some nd2 ∧
      point_in_space (FVec.ofInts 0 0 0) nd2.pos nd2.cube = true ∧
      C4tree.find (rpath ++ [i]) = none := by
  refine ⟨rfl, by norm_num, by decide, ?_⟩
  exact C8_node_at_pos_descends_to_containing_leaf_slot
    C4tree (FVec.ofInts 0 0 0) ((0, 0, 0), 1) ⟨FVec.ofInts 0 0 0, Frc.ofInt 1, [], false⟩
    (by
      intro pr hpr
      have hpr' : pr = ([], ⟨FVec.ofInts 0 0 0, Frc.ofInt 1, [], false⟩) :=
        List.mem_singleton.mp hpr
      subst hpr'
      show nodeDimQ _ = (((0, 0, 0), 1) : QDim)
      simp [nodeDimQ, FVec.ofInts, Frc.toQ_ofInt])
    rfl (by norm_num) (by decide)

theorem canonDimQ_append2 (d : QDim) (a b : OPath) :
    canonDimQ d (a ++ b) = canonDimQ (canonDimQ d a) b := by
  induction a generalizing d with
  | nil => rfl
  | cons j rest ih => exact ih (childDimQ d j)

/-- ℚ characterization of aabb_in_space (space.ts): the cubic AABB fully
inside the space, closed at both ends. -/
theorem aabb_in_space_iff (apos : FVec) (asize : Frc) (spos ssize : FVec) :
    aabb_in_space apos asize spos ssize = true ↔
      (spos.x.toQ ≤ apos.x.toQ ∧ apos.x.toQ + asize.toQ ≤ spos.x.toQ + ssize.x.toQ) ∧
      (spos.y.toQ ≤ apos.y.toQ ∧ apos.y.toQ + asize.toQ ≤ spos.y.toQ + ssize.y.toQ) ∧
      (spos.z.toQ ≤ apos.z.toQ ∧ apos.z.toQ + asize.toQ ≤ spos.z.toQ + ssize.z.toQ) := by
  unfold aabb_in_space space_in_space fge
  simp only [FVec.add, Bool.and_eq_true, Frc.ble_iff, Frc.toQ_add]
  tauto

/-- childDimQ at the index packed from three 0/1 bits. -/
theorem childDimQ_of_bits (d : QDim) (bx by' bz : ℤ)
    (h1 : bx = 0 ∨ bx = 1) (h2 : by' = 0 ∨ by' = 1) (h3 : bz = 0 ∨ bz = 1) :
    childDimQ d ((bz * 4 + by' * 2 + bx).toNat)
      = ((d.1.1 + (bx : ℚ) * (d.2 / 2),
          d.1.2.1 + (by' : ℚ) * (d.2 / 2),
          d.1.2.2 + (bz : ℚ) * (d.2 / 2)), d.2 / 2) := by
  rcases h1 with h1 | h1 <;> rcases h2 with h2 | h2 <;> rcases h3 with h3 | h3 <;>
    subst h1 <;> subst h2 <;> subst h3 <;>
    unfold childDimQ <;>
    norm_num [show Int.toNat 0 = 0 from rfl, show Int.toNat 1 = 1 from rfl,
      show Int.toNat 2 = 2 from rfl, show Int.toNat 3 = 3 from rfl,
      show Int.toNat 4 = 4 from rfl, show Int.toNat 5 = 5 from rfl,
      show Int.toNat 6 = 6 from rfl, show Int.toNat 7 = 7 from rfl]

/-- The truncating descent bits are the ℚ floors when the point lies in
the half-open cube. -/
theorem indBits_floor (p npos : FVec) (ns : Frc) (cx cy cz S : ℚ)
    (hcx : npos.x.toQ = cx) (hcy : npos.y.toQ = cy) (hcz : npos.z.toQ = cz)
    (hcs : ns.toQ = S) (hS : 0 < S)
    (hx1 : cx ≤ p.x.toQ) (hx2 : p.x.toQ < cx + S)
    (hy1 : cy ≤ p.y.toQ) (hy2 : p.y.toQ < cy + S)
    (hz1 : cz ≤ p.z.toQ) (hz2 : p.z.toQ < cz + S) :
    indBits p npos ns
      = (⌊(p.x.toQ - cx) * (2 / S)⌋, ⌊(p.y.toQ - cy) * (2 / S)⌋,
         ⌊(p.z.toQ - cz) * (2 / S)⌋) := by
  have hfx := floor_bit_step p.x.toQ cx S hS hx1 hx2
  have hfy := floor_bit_step p.y.toQ cy S hS hy1 hy2
  have hfz := floor_bit_step p.z.toQ cz S hS hz1 hz2
  have hsne : ns.toQ ≠ 0 := by rw [hcs]; exact ne_of_gt hS
  show (((p.x.sub npos.x).mul ((Frc.ofInt 2).div ns)).trunc,
        ((p.y.sub npos.y).mul ((Frc.ofInt 2).div ns)).trunc,
        ((p.z.sub npos.z).mul ((Frc.ofInt 2).div ns)).trunc) = _
  have e1 : ((p.x.sub npos.x).mul ((Frc.ofInt 2).div ns)).toQ = (p.x.toQ - cx) * (2 / S) := by
    rw [toQ_indBit _ _ _ hsne, hcx, hcs]
  have e2 : ((p.y.sub npos.y).mul ((Frc.ofInt 2).div ns)).toQ = (p.y.toQ - cy) * (2 / S) := by
    rw [toQ_indBit _ _ _ hsne, hcy, hcs]
  have e3 : ((p.z.sub npos.z).mul ((Frc.ofInt 2).div ns)).toQ = (p.z.toQ - cz) * (2 / S) := by
    rw [toQ_indBit _ _ _ hsne, hcz, hcs]
  rw [Frc.trunc_eq_floor_of_nonneg ((p.x.sub npos.x).mul ((Frc.ofInt 2).div ns))
        (by rw [e1]; exact hfx.1),
      Frc.trunc_eq_floor_of_nonneg ((p.y.sub npos.y).mul ((Frc.ofInt 2).div ns))
        (by rw [e2]; exact hfy.1),
      Frc.trunc_eq_floor_of_nonneg ((p.z.sub npos.z).mul ((Frc.ofInt 2).div ns))
        (by rw [e3]; exact hfz.1),
      e1, e2, e3]

/-- find? ignores a filter whose predicate holds wherever the search
predicate does. -/
theorem find_filter_of_keep {α : Type} (l : List α) (pred keep : α → Bool)
    (h : ∀ e ∈ l, pred e = true → keep e = true) :
    (l.filter keep).find? pred = l.find? pred := by
  induction l with
  | nil => rfl
  | cons a tl ih =>
    by_cases hp : pred a = true
    · have hk := h a (by simp) hp
      rw [List.filter_cons_of_pos hk, List.find?_cons_of_pos _ hp, List.find?_cons_of_pos _ hp]
    · have hp' : pred a = false := by simpa using hp
      by_cases hk : keep a = true
      · rw [List.filter_cons_of_pos hk, List.find?_cons_of_neg _ (by simp [hp']),
          List.find?_cons_of_neg _ (by simp [hp'])]
        exact ih (fun e he hpe => h e (by simp [he]) hpe)
      · rw [List.filter_cons_of_neg (by simpa using hk), List.find?_cons_of_neg _ (by simp [hp'])]
        exact ih (fun e he hpe => h e (by simp [he]) hpe)

theorem find_setChild_self (t : OTree) (p : OPath) (n : Nat) (nd : NodeD) :
    (t.setChild p n nd).find (p ++ [n]) = some nd := by
  unfold OTree.setChild OTree.find
  rw [List.find?_cons_of_pos _ (by simp)]
  rfl

theorem find_setChild_keep (t : OTree) (p : OPath) (n : Nat) (nd : NodeD)
    (q : OPath) (h : ¬ (p ++ [n]) <+: q) :
    (t.setChild p n nd).find q = t.find q := by
  unfold OTree.setChild OTree.find
  rw [List.find?_cons_of_neg _ ?hq]
  case hq =>
    simp only [beq_iff_eq]
    intro he
    exact h (he ▸ List.prefix_refl q)
  rw [find_filter_of_keep]
  intro e _ hpe
  have he : e.1 = q := by simpa using hpe
  simp only [decide_eq_true_eq, he]
  simpa using h

theorem find_setChild_ext_none (t : OTree) (p : OPath) (n : Nat) (nd : NodeD)
    (q : OPath) (hpre : (p ++ [n]) <+: q) (hne : q ≠ p ++ [n]) :
    (t.setChild p n nd).find q = none := by
  unfold OTree.setChild OTree.find
  rw [List.find?_cons_of_neg _ (by simpa using fun he => hne he.symm)]
  rw [List.find?_eq_none.mpr ?_]
  · rfl
  · intro e he
    have hkeep := (List.mem_filter.mp he).2
    simp only [decide_eq_true_eq] at hkeep
    simp only [beq_iff_eq]
    intro hkey
    exact hkeep (hkey ▸ hpre)

theorem find_setChild_inv (t : OTree) (p : OPath) (n : Nat) (nd : NodeD)
    (q : OPath) (nd1 : NodeD) (h : (t.setChild p n nd).find q = some nd1) :
    (q = p ++ [n] ∧ nd1 = nd) ∨ t.find q = some nd1 := by
  by_cases hq : q = p ++ [n]
  · subst hq
    rw [find_setChild_self] at h
    exact Or.inl ⟨rfl, (Option.some.injEq _ _).mp h.symm⟩
  · by_cases hpre : (p ++ [n]) <+: q
    · rw [find_setChild_ext_none t p n nd q hpre hq] at h
      exact absurd h (by simp)
    · rw [find_setChild_keep t p n nd q hpre] at h
      exact Or.inr h

theorem find_wrapRoot_other (t : OTree) (n : Nat) (nd : NodeD) (m : Nat) (p : OPath)
    (h : m ≠ n) :
    (t.wrapRoot n nd).find (m :: p) = none := by
  unfold OTree.wrapRoot OTree.find
  rw [List.find?_cons_of_neg _ (by simp)]
  rw [List.find?_map]
  rw [List.find?_eq_none.mpr ?_]
  · rfl
  · intro e _
    show ¬ ((n :: e.1 : OPath) == m :: p) = true
    simp [h.symm]

theorem ite_pair_fst {c : Prop} [Decidable c] (k : OPath) (A B : NodeD) :
    (if c then (k, A) else (k, B)).1 = k := by
  by_cases h : c <;> simp [h]

theorem find_set_octree (t : OTree) (ent : Nat) (tgt q : OPath) :
    (set_octree t ent tgt).find q = (t.find q).map
      (fun nd => if q = tgt then { nd with ents := ent :: nd.ents.filter (· ≠ ent) }
                 else { nd with ents := nd.ents.filter (· ≠ ent) }) := by
  unfold set_octree OTree.find
  show ((t.nodes.map _).find? (fun e : OPath × NodeD => e.1 == q)).map
      (fun e : OPath × NodeD => e.2) = _
  induction t.nodes with
  | nil => rfl
  | cons a l ih =>
    by_cases h : a.1 = q
    · by_cases htgt : a.1 = tgt
      · have hq : q = tgt := by rw [← h]; exact htgt
        rw [List.map_cons, List.find?_cons_of_pos _ (by simp [ite_pair_fst, h]),
          List.find?_cons_of_pos _ (by simpa using h)]
        simp [htgt, hq]
      · have hq : ¬ q = tgt := fun hh => htgt (h.trans hh)
        rw [List.map_cons, List.find?_cons_of_pos _ (by simp [ite_pair_fst, h]),
          List.find?_cons_of_pos _ (by simpa using h)]
        simp [htgt, hq]
    · rw [List.map_cons, List.find?_cons_of_neg _ (by simp [ite_pair_fst, h]),
        List.find?_cons_of_neg _ (by simpa using h)]
      exact ih

/-- Structural well-formedness of a heap with respect to the absolute
root dimension rd: the absolute root exists, the heap is closed under
parents (the object graph is parent-linked, so every prefix of a
node's path is a node), and every node carries the canonical dimension
that the Octree child constructors compute. -/
def WF (t : OTree) (rd : QDim) : Prop :=
  (∃ r, t.find [] = some r) ∧
  (∀ pr ∈ t.nodes, ∀ q : OPath, q <+: pr.1 → ∃ nd, t.find q = some nd) ∧
  (∀ pr ∈ t.nodes, nodeDimQ pr.2 = canonDimQ rd pr.1)

theorem WF.find_prefix {t : OTree} {rd : QDim} (hwf : WF t rd) {p : OPath} {nd : NodeD}
    (hfind : t.find p = some nd) {q : OPath} (hq : q <+: p) :
    ∃ nd', t.find q = some nd' :=
  hwf.2.1 (p, nd) (find_mem t p nd hfind) q hq

theorem WF.dims {t : OTree} {rd : QDim} (hwf : WF t rd) {p : OPath} {nd : NodeD}
    (hfind : t.find p = some nd) : nodeDimQ nd = canonDimQ rd p :=
  hwf.2.2 (p, nd) (find_mem t p nd hfind)

theorem find_setChild_preserved (t : OTree) (rd : QDim) (p : OPath) (n : Nat) (nd : NodeD)
    (hwf : WF t rd) (hnone : t.find (p ++ [n]) = none)
    (q : OPath) (nd0 : NodeD) (hq : t.find q = some nd0) :
    (t.setChild p n nd).find q = some nd0 := by
  rw [find_setChild_keep]
  · exact hq
  · intro hpre
    by_cases he : q = p ++ [n]
    · rw [he] at hq
      rw [hq] at hnone
      exact absurd hnone (by simp)
    · obtain ⟨nd1, hnd1⟩ := hwf.2.1 (q, nd0) (find_mem t q nd0 hq) (p ++ [n]) hpre
      rw [hnd1] at hnone
      exact absurd hnone (by simp)

theorem WF_setChild (t : OTree) (rd : QDim) (p : OPath) (n : Nat) (nd : NodeD) (pnd : NodeD)
    (hwf : WF t rd) (hp : t.find p = some pnd)
    (hnone : t.find (p ++ [n]) = none)
    (hdim : nodeDimQ nd = canonDimQ rd (p ++ [n])) :
    WF (t.setChild p n nd) rd := by
  refine ⟨?_, ?_, ?_⟩
  · obtain ⟨r, hr⟩ := hwf.1
    exact ⟨r, find_setChild_preserved t rd p n nd hwf hnone [] r hr⟩
  · intro pr hpr q hq
    rcases List.mem_cons.mp hpr with he | hm
    · subst he
      rcases List.prefix_concat_iff.mp hq with he2 | hq2
      · subst he2
        exact ⟨nd, find_setChild_self t p n nd⟩
      · obtain ⟨nd1, hnd1⟩ := hwf.find_prefix hp hq2
        exact ⟨nd1, find_setChild_preserved t rd p n nd hwf hnone q nd1 hnd1⟩
    · have hm' := List.mem_of_mem_filter hm
      obtain ⟨nd1, hnd1⟩ := hwf.2.1 pr hm' q hq
      exact ⟨nd1, find_setChild_preserved t rd p n nd hwf hnone q nd1 hnd1⟩
  · intro pr hpr
    rcases List.mem_cons.mp hpr with he | hm
    · subst he
      exact hdim
    · exact hwf.2.2 pr (List.mem_of_mem_filter hm)

theorem WF_wrapRoot (t : OTree) (rd rd' : QDim) (n : Nat) (rootNd : NodeD)
    (hwf : WF t rd)
    (hchild : childDimQ rd' n = rd)
    (hdim : nodeDimQ rootNd = rd') :
    WF (t.wrapRoot n rootNd) rd' := by
  refine ⟨⟨rootNd, find_wrapRoot_nil t n rootNd⟩, ?_, ?_⟩
  · intro pr hpr q hq
    rcases List.mem_cons.mp hpr with he | hm
    · subst he
      have : q = [] := List.prefix_nil.mp (by simpa using hq)
      subst this
      exact ⟨rootNd, find_wrapRoot_nil t n rootNd⟩
    · obtain ⟨e, he, hfe⟩ := List.mem_map.mp hm
      subst hfe
      rcases q with _ | ⟨m, q'⟩
      · exact ⟨rootNd, find_wrapRoot_nil t n rootNd⟩
      · obtain ⟨hm', hq'⟩ := List.cons_prefix_cons.mp hq
        subst hm'
        obtain ⟨nd1, hnd1⟩ := hwf.2.1 e he q' hq'
        exact ⟨nd1, by rw [find_wrapRoot_cons]; exact hnd1⟩
  · intro pr hpr
    rcases List.mem_cons.mp hpr with he | hm
    · subst he
      exact hdim
    · obtain ⟨e, he, hfe⟩ := List.mem_map.mp hm
      subst hfe
      show nodeDimQ e.2 = canonDimQ rd' (n :: e.1)
      have : canonDimQ rd' (n :: e.1) = canonDimQ (childDimQ rd' n) e.1 := rfl
      rw [this, hchild]
      exact hwf.2.2 e he

theorem extend_inside_go_step (a : FVec) (s : Frc) (fuel : Nat) (t : OTree) (cur : OPath)
    (nd : NodeD) (bx by' bz : Int)
    (hfind : t.find cur = some nd)
    (hib : indBits a nd.pos nd.size = (bx, by', bz)) :
    extend_tree_inside_go a s (fuel + 1) t cur =
      (if aabb_in_space a s
          (FVec.add nd.pos (FVec.scale ⟨Frc.ofInt bx, Frc.ofInt by', Frc.ofInt bz⟩
            (nd.size.div (Frc.ofInt 2))))
          ⟨nd.size.div (Frc.ofInt 2), nd.size.div (Frc.ofInt 2), nd.size.div (Frc.ofInt 2)⟩
        then extend_tree_inside_go a s fuel
          (t.setChild cur ((bz * 4 + by' * 2 + bx).toNat)
            ⟨FVec.add nd.pos (FVec.scale ⟨Frc.ofInt bx, Frc.ofInt by', Frc.ofInt bz⟩
              (nd.size.div (Frc.ofInt 2))), nd.size.div (Frc.ofInt 2), [], false⟩)
          (cur ++ [(bz * 4 + by' * 2 + bx).toNat])
        else (t, cur)) := by
  show (match t.find cur with
    | none => (t, cur)
    | some nd =>
      let (x, y, z) := insideBits a nd.pos nd.size
      let half := nd.size.div (Frc.ofInt 2)
      let spos := FVec.add nd.pos
        (FVec.scale ⟨Frc.ofInt x, Frc.ofInt y, Frc.ofInt z⟩ half)
      if aabb_in_space a s spos ⟨half, half, half⟩ then
        let node_idx : Nat := (z * 4 + y * 2 + x).toNat
        let t' := t.setChild cur node_idx ⟨spos, half, [], false⟩
        extend_tree_inside_go a s fuel t' (cur ++ [node_idx])
      else (t, cur)) = _
  rw [hfind]
  show (let (x, y, z) := insideBits a nd.pos nd.size
    let half := nd.size.div (Frc.ofInt 2)
    let spos := FVec.add nd.pos
      (FVec.scale ⟨Frc.ofInt x, Frc.ofInt y, Frc.ofInt z⟩ half)
    if aabb_in_space a s spos ⟨half, half, half⟩ then
      let node_idx : Nat := (z * 4 + y * 2 + x).toNat
      let t' := t.setChild cur node_idx ⟨spos, half, [], false⟩
      extend_tree_inside_go a s fuel t' (cur ++ [node_idx])
    else (t, cur)) = _
  rw [show insideBits a nd.pos nd.size = (bx, by', bz) from hib]

theorem extend_inside_go_stop (a : FVec) (s : Frc) (t : OTree) (cur : OPath)
    (nd : NodeD) (bx by' bz : Int)
    (hfind : t.find cur = some nd)
    (hib : indBits a nd.pos nd.size = (bx, by', bz))
    (hfail : aabb_in_space a s
        (FVec.add nd.pos (FVec.scale ⟨Frc.ofInt bx, Frc.ofInt by', Frc.ofInt bz⟩
          (nd.size.div (Frc.ofInt 2))))
        ⟨nd.size.div (Frc.ofInt 2), nd.size.div (Frc.ofInt 2),
          nd.size.div (Frc.ofInt 2)⟩ = false) :
    ∀ fuel, extend_tree_inside_go a s fuel t cur = (t, cur) := by
  intro fuel
  cases fuel with
  | zero => rfl
  | succ n =>
    rw [extend_inside_go_step a s n t cur nd bx by' bz hfind hib]
    rw [if_neg (by rw [hfail]; exact Bool.false_ne_true)]

/-- The extension loop of extend_tree_inside_to_fit_up_to_depth, run
from a node whose child slot toward the AABB origin is empty: every
Octree.set of the loop lands in an empty slot, so the loop only adds
fresh empty nodes below the start node, preserves every existing node
and ends at a node whose box still contains the AABB. -/
theorem extend_inside_go_fresh (rd : QDim) (a : FVec) (s : Frc)
    (hrpos : 0 < rd.2) (hs : 0 < s.toQ) :
    ∀ (fuel : Nat) (t : OTree) (cur : OPath) (curnd : NodeD),
      WF t rd →
      t.find cur = some curnd →
      t.find (cur ++ [idxAt a curnd]) = none →
      aabb_in_space a s curnd.pos curnd.cube = true →
      ∀ t' fp, extend_tree_inside_go a s fuel t cur = (t', fp) →
        WF t' rd ∧ cur <+: fp ∧
        (∃ fnd, t'.find fp = some fnd ∧ aabb_in_space a s fnd.pos fnd.cube = true) ∧
        (∀ q nd0, t.find q = some nd0 → t'.find q = some nd0) ∧
        (∀ q nd1, t'.find q = some nd1 → t.find q = some nd1 ∨ nd1.ents = []) := by
  intro fuel
  induction fuel with
  | zero =>
    intro t cur curnd hwf hfind hslot hfit t' fp h
    have ht : t' = t := (congrArg Prod.fst h).symm
    have hfp : fp = cur := (congrArg Prod.snd h).symm
    subst ht
    subst hfp
    exact ⟨hwf, List.prefix_refl fp, ⟨curnd, hfind, hfit⟩,
      fun q nd0 hq => hq, fun q nd1 hq => Or.inl hq⟩
  | succ n ih =>
    intro t cur curnd hwf hfind hslot hfit t' fp h
    have hnd := hwf.dims hfind
    have hcx : curnd.pos.x.toQ = (canonDimQ rd cur).1.1 := congrArg (fun d : QDim => d.1.1) hnd
    have hcy : curnd.pos.y.toQ = (canonDimQ rd cur).1.2.1 :=
      congrArg (fun d : QDim => d.1.2.1) hnd
    have hcz : curnd.pos.z.toQ = (canonDimQ rd cur).1.2.2 :=
      congrArg (fun d : QDim => d.1.2.2) hnd
    have hcs : curnd.size.toQ = (canonDimQ rd cur).2 := congrArg (fun d : QDim => d.2) hnd
    have hS : 0 < (canonDimQ rd cur).2 := canonDimQ_size_pos rd hrpos cur
    have hfit' := (aabb_in_space_iff a s curnd.pos curnd.cube).mp hfit
    have hcubex : curnd.cube.x = curnd.size := rfl
    have hcubey : curnd.cube.y = curnd.size := rfl
    have hcubez : curnd.cube.z = curnd.size := rfl
    rw [hcubex, hcubey, hcubez, hcx, hcy, hcz, hcs] at hfit'
    have hx1 : (canonDimQ rd cur).1.1 ≤ a.x.toQ := hfit'.1.1
    have hx2 : a.x.toQ < (canonDimQ rd cur).1.1 + (canonDimQ rd cur).2 := by
      have := hfit'.1.2
      linarith
    have hy1 : (canonDimQ rd cur).1.2.1 ≤ a.y.toQ := hfit'.2.1.1
    have hy2 : a.y.toQ < (canonDimQ rd cur).1.2.1 + (canonDimQ rd cur).2 := by
      have := hfit'.2.1.2
      linarith
    have hz1 : (canonDimQ rd cur).1.2.2 ≤ a.z.toQ := hfit'.2.2.1
    have hz2 : a.z.toQ < (canonDimQ rd cur).1.2.2 + (canonDimQ rd cur).2 := by
      have := hfit'.2.2.2
      linarith
    set bx : ℤ := ⌊(a.x.toQ - (canonDimQ rd cur).1.1) * (2 / (canonDimQ rd cur).2)⌋ with hbxd
    set by' : ℤ := ⌊(a.y.toQ - (canonDimQ rd cur).1.2.1) * (2 / (canonDimQ rd cur).2)⌋ with hbyd
    set bz : ℤ := ⌊(a.z.toQ - (canonDimQ rd cur).1.2.2) * (2 / (canonDimQ rd cur).2)⌋ with hbzd
    have hib : indBits a curnd.pos curnd.size = (bx, by', bz) :=
      indBits_floor a curnd.pos curnd.size _ _ _ _ hcx hcy hcz hcs hS hx1 hx2 hy1 hy2 hz1 hz2
    have hfx := floor_bit_step a.x.toQ (canonDimQ rd cur).1.1 (canonDimQ rd cur).2 hS hx1 hx2
    have hfy := floor_bit_step a.y.toQ (canonDimQ rd cur).1.2.1 (canonDimQ rd cur).2 hS hy1 hy2
    have hfz := floor_bit_step a.z.toQ (canonDimQ rd cur).1.2.2 (canonDimQ rd cur).2 hS hz1 hz2
    have hidx : idxAt a curnd = (bz * 4 + by' * 2 + bx).toNat := by
      unfold idxAt
      rw [hib]
    rw [extend_inside_go_step a s n t cur curnd bx by' bz hfind hib] at h
    by_cases hfb : aabb_in_space a s
        (FVec.add curnd.pos (FVec.scale ⟨Frc.ofInt bx, Frc.ofInt by', Frc.ofInt bz⟩
          (curnd.size.div (Frc.ofInt 2))))
        ⟨curnd.size.div (Frc.ofInt 2), curnd.size.div (Frc.ofInt 2),
          curnd.size.div (Frc.ofInt 2)⟩ = true
    · rw [if_pos hfb] at h
      have hhalf : (curnd.size.div (Frc.ofInt 2)).toQ = (canonDimQ rd cur).2 / 2 := by
        rw [half_toQ, hcs]
      have hslot' : t.find (cur ++ [(bz * 4 + by' * 2 + bx).toNat]) = none := by
        rw [← hidx]
        exact hslot
      have hdimc : nodeDimQ
          (⟨FVec.add curnd.pos (FVec.scale ⟨Frc.ofInt bx, Frc.ofInt by', Frc.ofInt bz⟩
              (curnd.size.div (Frc.ofInt 2))), curnd.size.div (Frc.ofInt 2), [], false⟩ : NodeD)
          = canonDimQ rd (cur ++ [(bz * 4 + by' * 2 + bx).toNat]) := by
        rw [canonDimQ_append, childDimQ_of_bits (canonDimQ rd cur) bx by' bz
          hfx.2.1 hfy.2.1 hfz.2.1]
        unfold nodeDimQ
        refine Prod.ext (Prod.ext ?_ (Prod.ext ?_ ?_)) ?_
        · show ((curnd.pos.x).add ((Frc.ofInt bx).mul (curnd.size.div (Frc.ofInt 2)))).toQ = _
          rw [Frc.toQ_add, Frc.toQ_mul, Frc.toQ_ofInt, hhalf, hcx]
        · show ((curnd.pos.y).add ((Frc.ofInt by').mul (curnd.size.div (Frc.ofInt 2)))).toQ = _
          rw [Frc.toQ_add, Frc.toQ_mul, Frc.toQ_ofInt, hhalf, hcy]
        · show ((curnd.pos.z).add ((Frc.ofInt bz).mul (curnd.size.div (Frc.ofInt 2)))).toQ = _
          rw [Frc.toQ_add, Frc.toQ_mul, Frc.toQ_ofInt, hhalf, hcz]
        · exact hhalf
      have hwf1 : WF (t.setChild cur ((bz * 4 + by' * 2 + bx).toNat)
          ⟨FVec.add curnd.pos (FVec.scale ⟨Frc.ofInt bx, Frc.ofInt by', Frc.ofInt bz⟩
            (curnd.size.div (Frc.ofInt 2))), curnd.size.div (Frc.ofInt 2), [], false⟩) rd :=
        WF_setChild t rd cur ((bz * 4 + by' * 2 + bx).toNat) _ curnd hwf hfind hslot' hdimc
      have hfind1 := find_setChild_self t cur ((bz * 4 + by' * 2 + bx).toNat)
        (⟨FVec.add curnd.pos (FVec.scale ⟨Frc.ofInt bx, Frc.ofInt by', Frc.ofInt bz⟩
          (curnd.size.div (Frc.ofInt 2))), curnd.size.div (Frc.ofInt 2), [], false⟩ : NodeD)
      have hslot1 := find_setChild_ext_none t cur ((bz * 4 + by' * 2 + bx).toNat)
        (⟨FVec.add curnd.pos (FVec.scale ⟨Frc.ofInt bx, Frc.ofInt by', Frc.ofInt bz⟩
          (curnd.size.div (Frc.ofInt 2))), curnd.size.div (Frc.ofInt 2), [], false⟩ : NodeD)
        ((cur ++ [(bz * 4 + by' * 2 + bx).toNat]) ++
          [idxAt a (⟨FVec.add curnd.pos (FVec.scale ⟨Frc.ofInt bx, Frc.ofInt by', Frc.ofInt bz⟩
            (curnd.size.div (Frc.ofInt 2))), curnd.size.div (Frc.ofInt 2), [], false⟩ : NodeD)])
        (List.prefix_append _ _)
        (by
          intro he
          have := congrArg List.length he
          simp at this)
      obtain ⟨hwf', hpre, hex, hfwd, hbwd⟩ := ih _ _ _ hwf1 hfind1 hslot1 hfb t' fp h
      refine ⟨hwf', (List.prefix_append cur [(bz * 4 + by' * 2 + bx).toNat]).trans hpre,
        hex, ?_, ?_⟩
      · intro q nd0 hq
        exact hfwd q nd0 (find_setChild_preserved t rd cur _ _ hwf hslot' q nd0 hq)
      · intro q nd1 hq
        rcases hbwd q nd1 hq with hq1 | he
        · rcases find_setChild_inv t cur _ _ q nd1 hq1 with ⟨hqe, hnde⟩ | hq2
          · right
            rw [hnde]
          · left
            exact hq2
        · right
          exact he
    · rw [if_neg hfb] at h
      have ht : t' = t := (congrArg Prod.fst h).symm
      have hfp : fp = cur := (congrArg Prod.snd h).symm
      subst ht
      subst hfp
      exact ⟨hwf, List.prefix_refl fp, ⟨curnd, hfind, hfit⟩,
        fun q nd0 hq => hq, fun q nd1 hq => Or.inl hq⟩

/-- The do-while climb of get_covering_node_for_entity: a successful
result is a prefix of the scanned path (given reversed), its box fits
the AABB, and the fit failed at every strictly deeper scanned node. -/
theorem climbRev_spec (t : OTree) (a : FVec) (s : Frc) :
    ∀ (rev : OPath) (m : OPath), climbRev t rev a s = some m →
      m.reverse <:+ rev ∧ fitsAt t m a s = true ∧
      ∀ l, l <:+ rev → m.reverse <:+ l → l ≠ m.reverse → fitsAt t l.reverse a s = false := by
  intro rev
  induction rev with
  | nil =>
    intro m h
    unfold climbRev at h
    by_cases hf : fitsAt t ([] : OPath).reverse a s = true
    · rw [if_pos hf] at h
      have hm : ([] : OPath).reverse = m := by simpa using h
      refine ⟨?_, ?_, ?_⟩
      · rw [← hm]
        exact List.suffix_refl _
      · rw [← hm]
        exact hf
      · intro l hl _ hne
        have : l = [] := by simpa using hl
        subst this
        exact absurd (by rw [← hm]; rfl) hne
    · rw [if_neg hf] at h
      exact absurd h (by simp)
  | cons hd tl ih =>
    intro m h
    unfold climbRev at h
    by_cases hf : fitsAt t (hd :: tl).reverse a s = true
    · rw [if_pos hf] at h
      have hm : (hd :: tl).reverse = m := by simpa using h
      refine ⟨?_, ?_, ?_⟩
      · rw [← hm, List.reverse_reverse]
      · rw [← hm]
        exact hf
      · intro l hl hml hne
        rw [← hm, List.reverse_reverse] at hml
        have hll : l = hd :: tl := hl.eq_of_length (Nat.le_antisymm hl.length_le hml.length_le)
        rw [← hm, List.reverse_reverse] at hne
        exact absurd hll hne
    · rw [if_neg hf] at h
      obtain ⟨hsfx, hfit, hall⟩ := ih m h
      refine ⟨hsfx.trans (List.suffix_cons hd tl), hfit, ?_⟩
      intro l hl hml hne
      rcases List.suffix_cons_iff.mp hl with he | hl'
      · subst he
        exact Bool.eq_false_iff.mpr hf
      · exact hall l hl' hml hne

/-- get_covering_node_for_entity: the returned node is a prefix of the
node_at_pos descent path, its box covers the AABB, and the fit failed
at every strictly deeper node on the descent path. -/
theorem get_covering_spec (t : OTree) (a : FVec) (s : Frc) :
    ∀ m, get_covering_node_for_entity t a s = some m →
    ∃ rpath i, node_at_pos t a = some (rpath, i) ∧
      m <+: rpath ∧ fitsAt t m a s = true ∧
      ∀ q, m <+: q → q <+: rpath → q ≠ m → fitsAt t q a s = false := by
  intro m h
  unfold get_covering_node_for_entity at h
  cases hnp : node_at_pos t a with
  | none =>
    rw [hnp] at h
    exact absurd h (by simp)
  | some pr =>
    obtain ⟨p, i⟩ := pr
    rw [hnp] at h
    obtain ⟨hsfx, hfit, hall⟩ := climbRev_spec t a s p.reverse m h
    refine ⟨p, i, rfl, ?_, hfit, ?_⟩
    · exact List.reverse_suffix.mp (by simpa using hsfx)
    · intro q hmq hqp hne
      have hq := hall q.reverse (by simpa using List.reverse_suffix.mpr hqp)
        (by simpa using List.reverse_suffix.mpr hmq)
        (fun hh => hne (by simpa using congrArg List.reverse hh))
      rw [List.reverse_reverse] at hq
      exact hq

theorem find_wrapRoot_inv (t : OTree) (n : Nat) (nd : NodeD) (q : OPath) (nd1 : NodeD)
    (h : (t.wrapRoot n nd).find q = some nd1) :
    (q = [] ∧ nd1 = nd) ∨ ∃ q0, q = n :: q0 ∧ t.find q0 = some nd1 := by
  rcases q with _ | ⟨m, q0⟩
  · rw [find_wrapRoot_nil] at h
    exact Or.inl ⟨rfl, by simpa using h.symm⟩
  · by_cases hm : m = n
    · subst hm
      rw [find_wrapRoot_cons] at h
      exact Or.inr ⟨q0, rfl, h⟩
    · rw [find_wrapRoot_other t n nd m q0 hm] at h
      exact absurd h (by simp)

theorem clampI_range (v : Int) : clampI v (-1) 0 = -1 ∨ clampI v (-1) 0 = 0 := by
  unfold clampI
  omega

theorem growStep_eq (t : OTree) (a : FVec) (cur : NodeD) (ax ay az : Int)
    (hroot : t.find [] = some cur)
    (hax : ax = clampI ((a.x.sub cur.pos.x).div cur.size).floor (-1) 0)
    (hay : ay = clampI ((a.y.sub cur.pos.y).div cur.size).floor (-1) 0)
    (haz : az = clampI ((a.z.sub cur.pos.z).div cur.size).floor (-1) 0) :
    growStep t a = (t.wrapRoot (((-az) * 4 + (-ay) * 2 + (-ax)).toNat)
      ⟨FVec.add cur.pos (FVec.scale ⟨Frc.ofInt ax, Frc.ofInt ay, Frc.ofInt az⟩ cur.size),
       cur.size.mul (Frc.ofInt 2), [], false⟩,
      ((-az) * 4 + (-ay) * 2 + (-ax)).toNat) := by
  subst hax
  subst hay
  subst haz
  unfold growStep
  rw [hroot]

/-- One outside growth step on a well-formed heap: the new absolute
root carries some canonical dimension rd1 whose child at the returned
octant is the old root dimension, the whole old heap reappears below
that octant, and the fresh root has an empty entity set. -/
theorem WF_growStep (t : OTree) (rd : QDim) (a : FVec)
    (hwf : WF t rd) (hrpos : 0 < rd.2) :
    ∃ rd1, WF (growStep t a).1 rd1 ∧ 0 < rd1.2 ∧
      childDimQ rd1 (growStep t a).2 = rd ∧
      (∀ q nd0, t.find q = some nd0 →
        (growStep t a).1.find ((growStep t a).2 :: q) = some nd0) ∧
      (∀ q nd1, (growStep t a).1.find q = some nd1 →
        (q = [] ∧ nd1.ents = []) ∨
        (∃ q0, q = (growStep t a).2 :: q0 ∧ t.find q0 = some nd1)) := by
  obtain ⟨cur, hcur⟩ := hwf.1
  have hcd := hwf.dims hcur
  have hcsz : cur.size.toQ = rd.2 := congrArg (fun d : QDim => d.2) hcd
  have hcpx : cur.pos.x.toQ = rd.1.1 := congrArg (fun d : QDim => d.1.1) hcd
  have hcpy : cur.pos.y.toQ = rd.1.2.1 := congrArg (fun d : QDim => d.1.2.1) hcd
  have hcpz : cur.pos.z.toQ = rd.1.2.2 := congrArg (fun d : QDim => d.1.2.2) hcd
  have heq := growStep_eq t a cur _ _ _ hcur rfl rfl rfl
  set ax : Int := clampI ((a.x.sub cur.pos.x).div cur.size).floor (-1) 0 with haxd
  set ay : Int := clampI ((a.y.sub cur.pos.y).div cur.size).floor (-1) 0 with hayd
  set az : Int := clampI ((a.z.sub cur.pos.z).div cur.size).floor (-1) 0 with hazd
  set pnd : NodeD := ⟨FVec.add cur.pos
      (FVec.scale ⟨Frc.ofInt ax, Frc.ofInt ay, Frc.ofInt az⟩ cur.size),
    cur.size.mul (Frc.ofInt 2), [], false⟩ with hpndd
  have hpsz : pnd.size.toQ = 2 * rd.2 := by
    show (cur.size.mul (Frc.ofInt 2)).toQ = _
    rw [Frc.toQ_mul, Frc.toQ_ofInt, hcsz]
    ring
  have hppx : pnd.pos.x.toQ = rd.1.1 + (ax : ℚ) * rd.2 := by
    show ((cur.pos.x).add ((Frc.ofInt ax).mul cur.size)).toQ = _
    rw [Frc.toQ_add, Frc.toQ_mul, Frc.toQ_ofInt, hcsz, hcpx]
  have hppy : pnd.pos.y.toQ = rd.1.2.1 + (ay : ℚ) * rd.2 := by
    show ((cur.pos.y).add ((Frc.ofInt ay).mul cur.size)).toQ = _
    rw [Frc.toQ_add, Frc.toQ_mul, Frc.toQ_ofInt, hcsz, hcpy]
  have hppz : pnd.pos.z.toQ = rd.1.2.2 + (az : ℚ) * rd.2 := by
    show ((cur.pos.z).add ((Frc.ofInt az).mul cur.size)).toQ = _
    rw [Frc.toQ_add, Frc.toQ_mul, Frc.toQ_ofInt, hcsz, hcpz]
  have hchild : childDimQ (nodeDimQ pnd) (((-az) * 4 + (-ay) * 2 + (-ax)).toNat) = rd := by
    rw [childDimQ_of_bits (nodeDimQ pnd) (-ax) (-ay) (-az)
      (by rcases clampI_range ((a.x.sub cur.pos.x).div cur.size).floor with h | h <;>
        rw [← haxd] at h <;> omega)
      (by rcases clampI_range ((a.y.sub cur.pos.y).div cur.size).floor with h | h <;>
        rw [← hayd] at h <;> omega)
      (by rcases clampI_range ((a.z.sub cur.pos.z).div cur.size).floor with h | h <;>
        rw [← hazd] at h <;> omega)]
    refine Prod.ext (Prod.ext ?_ (Prod.ext ?_ ?_)) ?_
    · show pnd.pos.x.toQ + ((-ax : ℤ) : ℚ) * (pnd.size.toQ / 2) = rd.1.1
      rw [hppx, hpsz]
      push_cast
      ring
    · show pnd.pos.y.toQ + ((-ay : ℤ) : ℚ) * (pnd.size.toQ / 2) = rd.1.2.1
      rw [hppy, hpsz]
      push_cast
      ring
    · show pnd.pos.z.toQ + ((-az : ℤ) : ℚ) * (pnd.size.toQ / 2) = rd.1.2.2
      rw [hppz, hpsz]
      push_cast
      ring
    · show pnd.size.toQ / 2 = rd.2
      rw [hpsz]
      ring
  refine ⟨nodeDimQ pnd, ?_, ?_, ?_, ?_, ?_⟩
  · rw [heq]
    exact WF_wrapRoot t rd (nodeDimQ pnd) _ pnd hwf hchild rfl
  · show (0 : ℚ) < pnd.size.toQ
    rw [hpsz]
    linarith
  · rw [heq]
    exact hchild
  · intro q nd0 hq
    rw [heq]
    show (t.wrapRoot (((-az) * 4 + (-ay) * 2 + (-ax)).toNat) pnd).find
      ((((-az) * 4 + (-ay) * 2 + (-ax)).toNat) :: q) = some nd0
    rw [find_wrapRoot_cons]
    exact hq
  · intro q nd1 h
    rw [heq] at h
    rcases find_wrapRoot_inv t _ pnd q nd1 h with ⟨hq0, hnd⟩ | ⟨q0, hq0, hfq0⟩
    · left
      exact ⟨hq0, by rw [hnd]⟩
    · right
      rw [heq]
      exact ⟨q0, hq0, hfq0⟩

/-- The outside growth loop on a well-formed heap that the AABB does
not fit: on success the grown heap is well-formed for some new root
dimension, the old heap reappears in full below the returned path, all
fresh nodes have empty entity sets, the AABB fits the grown root, and
any existing child of the grown root still fails the fit (it is a
previous root, where the loop's fit test failed). -/
theorem extend_outside_wf (a : FVec) (s : Frc) :
    ∀ (fuel : Nat) (t : OTree) (rd : QDim), WF t rd → 0 < rd.2 →
      fitsAt t [] a s = false →
      ∀ t' pfx, extend_tree_outside t a s fuel = .ok (t', pfx) →
      ∃ rd', WF t' rd' ∧ 0 < rd'.2 ∧ canonDimQ rd' pfx = rd ∧
        (∀ q nd0, t.find q = some nd0 → t'.find (pfx ++ q) = some nd0) ∧
        (∀ q nd1, t'.find q = some nd1 →
          (∃ q0, q = pfx ++ q0 ∧ t.find q0 = some nd1) ∨ nd1.ents = []) ∧
        fitsAt t' [] a s = true ∧
        (∀ j nd1, t'.find [j] = some nd1 → aabb_in_space a s nd1.pos nd1.cube = false) := by
  intro fuel
  induction fuel with
  | zero =>
    intro t rd _ _ _ t' pfx h
    unfold extend_tree_outside at h
    exact absurd h (by simp)
  | succ n ih =>
    intro t rd hwf hrpos hfit0 t' pfx h
    obtain ⟨rd1, hwf1, hrpos1, hchild1, hfwd1, hbwd1⟩ := WF_growStep t rd a hwf hrpos
    obtain ⟨nd1, hnd1⟩ := hwf1.1
    unfold extend_tree_outside at h
    simp only at h
    rw [hnd1] at h
    simp only at h
    by_cases hfit : aabb_in_space a s nd1.pos nd1.cube
    · rw [if_pos hfit] at h
      have hinj := (Except.ok.injEq _ _).mp h.symm
      have ht' : t' = (growStep t a).1 := congrArg Prod.fst hinj
      have hpfx : pfx = [(growStep t a).2] := congrArg Prod.snd hinj
      subst ht'
      subst hpfx
      refine ⟨rd1, hwf1, hrpos1, hchild1, ?_, ?_, ?_, ?_⟩
      · intro q nd0 hq
        exact hfwd1 q nd0 hq
      · intro q nd0 hq
        rcases hbwd1 q nd0 hq with ⟨hq0, he⟩ | ⟨q0, hq0, hfq0⟩
        · right
          exact he
        · left
          exact ⟨q0, hq0, hfq0⟩
      · unfold fitsAt
        rw [hnd1]
        exact hfit
      · intro j nd2 hj
        rcases hbwd1 [j] nd2 hj with ⟨hq0, _⟩ | ⟨q0, hq0, hfq0⟩
        · exact absurd hq0 (by simp)
        · have hq0' : q0 = [] := by
            have := congrArg List.length hq0
            simpa using this
          subst hq0'
          unfold fitsAt at hfit0
          rw [hfq0] at hfit0
          exact hfit0
    · rw [if_neg hfit] at h
      have hfit1 : fitsAt (growStep t a).1 [] a s = false := by
        unfold fitsAt
        rw [hnd1]
        exact Bool.eq_false_iff.mpr hfit
      cases hrec : extend_tree_outside (growStep t a).1 a s n with
      | error e1 =>
        rw [hrec] at h
        exact absurd h (by simp)
      | ok v =>
        rw [hrec] at h
        have hinj := (Except.ok.injEq _ _).mp h.symm
        have ht' : t' = v.1 := congrArg Prod.fst hinj
        have hpfx : pfx = v.2 ++ [(growStep t a).2] := congrArg Prod.snd hinj
        subst ht'
        subst hpfx
        obtain ⟨rd', hwf', hrpos', hcanon, hfwd, hbwd, hfitr, hchildr⟩ :=
          ih (growStep t a).1 rd1 hwf1 hrpos1 hfit1 v.1 v.2 (by rw [hrec])
        refine ⟨rd', hwf', hrpos', ?_, ?_, ?_, hfitr, hchildr⟩
        · rw [canonDimQ_append2, hcanon]
          show childDimQ rd1 ((growStep t a).2) = rd
          exact hchild1
        · intro q nd0 hq
          have := hfwd ((growStep t a).2 :: q) nd0 (hfwd1 q nd0 hq)
          rw [List.append_cons] at this
          exact this
        · intro q nd0 hq
          rcases hbwd q nd0 hq with ⟨q0, hq0, hfq0⟩ | he
          · rcases hbwd1 q0 nd0 hfq0 with ⟨hq00, he⟩ | ⟨q1, hq1, hfq1⟩
            · right
              exact he
            · left
              refine ⟨q1, ?_, hfq1⟩
              rw [hq0, hq1, List.append_cons]
          · right
            exact he

theorem fitsAt_iff (t : OTree) (m : OPath) (a : FVec) (s : Frc) :
    fitsAt t m a s = true ↔
      ∃ nd, t.find m = some nd ∧ aabb_in_space a s nd.pos nd.cube = true := by
  unfold fitsAt
  cases h : t.find m <;> simp

theorem aabb_congr (a : FVec) (s : Frc) (p1 c1 p2 c2 : FVec)
    (hx : p1.x.toQ = p2.x.toQ) (hy : p1.y.toQ = p2.y.toQ) (hz : p1.z.toQ = p2.z.toQ)
    (hcx : c1.x.toQ = c2.x.toQ) (hcy : c1.y.toQ = c2.y.toQ) (hcz : c1.z.toQ = c2.z.toQ) :
    aabb_in_space a s p1 c1 = aabb_in_space a s p2 c2 := by
  have h1 := aabb_in_space_iff a s p1 c1
  have h2 := aabb_in_space_iff a s p2 c2
  rw [hx, hy, hz, hcx, hcy, hcz] at h1
  cases hb : aabb_in_space a s p2 c2
  · refine Bool.eq_false_iff.mpr fun hh => ?_
    have hb' := h2.mpr (h1.mp hh)
    rw [hb] at hb'
    exact Bool.false_ne_true hb'
  · exact h1.mpr (h2.mp hb)

/-- The AABB origin lies strictly inside the half-open cube of any node
whose cube contains the AABB, provided the AABB size is positive. -/
theorem fit_strict_inside (a : FVec) (s : Frc) (nd : NodeD) (dq : QDim)
    (hnd : nodeDimQ nd = dq) (hs : 0 < s.toQ)
    (hfit : aabb_in_space a s nd.pos nd.cube = true) : inDimQ a dq := by
  have hcx : nd.pos.x.toQ = dq.1.1 := congrArg (fun d : QDim => d.1.1) hnd
  have hcy : nd.pos.y.toQ = dq.1.2.1 := congrArg (fun d : QDim => d.1.2.1) hnd
  have hcz : nd.pos.z.toQ = dq.1.2.2 := congrArg (fun d : QDim => d.1.2.2) hnd
  have hcs : nd.size.toQ = dq.2 := congrArg (fun d : QDim => d.2) hnd
  have h := (aabb_in_space_iff a s nd.pos nd.cube).mp hfit
  have hbx : nd.cube.x = nd.size := rfl
  have hby : nd.cube.y = nd.size := rfl
  have hbz : nd.cube.z = nd.size := rfl
  rw [hbx, hby, hbz, hcx, hcy, hcz, hcs] at h
  exact ⟨h.1.1, by linarith [h.1.2], h.2.1.1, by linarith [h.2.1.2],
    h.2.2.1, by linarith [h.2.2.2]⟩

/-- The data of the child sub-box computed by
extend_tree_inside_to_fit_up_to_depth at a node holding a strictly
interior point: the truncating bits are the canonical child bits and
the computed sub-box is the canonical child dimension. -/
theorem child_box_data (rd : QDim) (a : FVec) (cur : OPath) (curnd : NodeD)
    (hnd : nodeDimQ curnd = canonDimQ rd cur)
    (hrpos : 0 < rd.2)
    (hin : inDimQ a (canonDimQ rd cur)) :
    ∃ bx by' bz : Int,
      indBits a curnd.pos curnd.size = (bx, by', bz) ∧
      idxAt a curnd = (bz * 4 + by' * 2 + bx).toNat ∧
      nodeDimQ (⟨FVec.add curnd.pos (FVec.scale ⟨Frc.ofInt bx, Frc.ofInt by', Frc.ofInt bz⟩
          (curnd.size.div (Frc.ofInt 2))), curnd.size.div (Frc.ofInt 2), [], false⟩ : NodeD)
        = canonDimQ rd (cur ++ [idxAt a curnd]) := by
  have hcx : curnd.pos.x.toQ = (canonDimQ rd cur).1.1 := congrArg (fun d : QDim => d.1.1) hnd
  have hcy : curnd.pos.y.toQ = (canonDimQ rd cur).1.2.1 :=
    congrArg (fun d : QDim => d.1.2.1) hnd
  have hcz : curnd.pos.z.toQ = (canonDimQ rd cur).1.2.2 :=
    congrArg (fun d : QDim => d.1.2.2) hnd
  have hcs : curnd.size.toQ = (canonDimQ rd cur).2 := congrArg (fun d : QDim => d.2) hnd
  have hS : 0 < (canonDimQ rd cur).2 := canonDimQ_size_pos rd hrpos cur
  obtain ⟨hx1, hx2, hy1, hy2, hz1, hz2⟩ := hin
  have hib := indBits_floor a curnd.pos curnd.size _ _ _ _ hcx hcy hcz hcs hS
    hx1 hx2 hy1 hy2 hz1 hz2
  have hfx := floor_bit_step a.x.toQ (canonDimQ rd cur).1.1 (canonDimQ rd cur).2 hS hx1 hx2
  have hfy := floor_bit_step a.y.toQ (canonDimQ rd cur).1.2.1 (canonDimQ rd cur).2 hS hy1 hy2
  have hfz := floor_bit_step a.z.toQ (canonDimQ rd cur).1.2.2 (canonDimQ rd cur).2 hS hz1 hz2
  refine ⟨_, _, _, hib, ?_, ?_⟩
  · unfold idxAt
    rw [hib]
  · have hidx : idxAt a curnd
        = ((⌊(a.z.toQ - (canonDimQ rd cur).1.2.2) * (2 / (canonDimQ rd cur).2)⌋ : ℤ) * 4
          + (⌊(a.y.toQ - (canonDimQ rd cur).1.2.1) * (2 / (canonDimQ rd cur).2)⌋ : ℤ) * 2
          + (⌊(a.x.toQ - (canonDimQ rd cur).1.1) * (2 / (canonDimQ rd cur).2)⌋ : ℤ)).toNat := by
      unfold idxAt
      rw [hib]
    rw [hidx, canonDimQ_append, childDimQ_of_bits (canonDimQ rd cur) _ _ _
      hfx.2.1 hfy.2.1 hfz.2.1]
    have hhalf : (curnd.size.div (Frc.ofInt 2)).toQ = (canonDimQ rd cur).2 / 2 := by
      rw [half_toQ, hcs]
    unfold nodeDimQ
    refine Prod.ext (Prod.ext ?_ (Prod.ext ?_ ?_)) ?_
    · show ((curnd.pos.x).add ((Frc.ofInt _).mul (curnd.size.div (Frc.ofInt 2)))).toQ = _
      rw [Frc.toQ_add, Frc.toQ_mul, Frc.toQ_ofInt, hhalf, hcx]
    · show ((curnd.pos.y).add ((Frc.ofInt _).mul (curnd.size.div (Frc.ofInt 2)))).toQ = _
      rw [Frc.toQ_add, Frc.toQ_mul, Frc.toQ_ofInt, hhalf, hcy]
    · show ((curnd.pos.z).add ((Frc.ofInt _).mul (curnd.size.div (Frc.ofInt 2)))).toQ = _
      rw [Frc.toQ_add, Frc.toQ_mul, Frc.toQ_ofInt, hhalf, hcz]
    · exact hhalf

theorem climbRev_none (t : OTree) (a : FVec) (s : Frc) :
    ∀ (rev : OPath), climbRev t rev a s = none →
      ∀ l, l <:+ rev → fitsAt t l.reverse a s = false := by
  intro rev
  induction rev with
  | nil =>
    intro h l hl
    have : l = [] := by simpa using hl
    subst this
    unfold climbRev at h
    by_cases hf : fitsAt t ([] : OPath).reverse a s = true
    · rw [if_pos hf] at h
      exact absurd h (by simp)
    · exact Bool.eq_false_iff.mpr hf
  | cons hd tl ih =>
    intro h l hl
    unfold climbRev at h
    by_cases hf : fitsAt t (hd :: tl).reverse a s = true
    · rw [if_pos hf] at h
      exact absurd h (by simp)
    · rw [if_neg hf] at h
      rcases List.suffix_cons_iff.mp hl with he | hl'
      · subst he
        exact Bool.eq_false_iff.mpr hf
      · exact ih h l hl'

/-- node_at_pos on a well-formed heap at a point inside the absolute
root: the full characterization, including the chain of descent
octants. -/
theorem node_at_pos_spec (t : OTree) (p : FVec) (rd : QDim) (root : NodeD)
    (hwf : WF t rd)
    (hroot : t.find [] = some root)
    (hrpos : 0 < rd.2)
    (hp : point_in_space p root.pos root.cube = true) :
    ∃ rpath i nd2, node_at_pos t p = some (rpath, i) ∧
      t.find rpath = some nd2 ∧
      point_in_space p nd2.pos nd2.cube = true ∧
      t.find (rpath ++ [i]) = none ∧
      ∀ q o, q ++ [o] <+: rpath ++ [i] →
        ∃ ndq, t.find q = some ndq ∧ o = idxAt p ndq := by
  have hrootdim : nodeDimQ root = rd := by
    have h := hwf.2.2 ([], root) (find_mem t [] root hroot)
    simpa [canonDimQ] using h
  have hdpos : (root.pos.x.toQ, root.pos.y.toQ, root.pos.z.toQ) = (canonDimQ rd []).1 :=
    congrArg Prod.fst hrootdim
  have hdsize : root.size.toQ = (canonDimQ rd []).2 :=
    congrArg Prod.snd hrootdim
  have hin : inDimQ p (canonDimQ rd []) := by
    have hiff := (point_in_space_iff p root.pos root.cube).mp hp
    have hx : root.pos.x.toQ = rd.1.1 := congrArg (fun d : QDim => d.1.1) hrootdim
    have hy : root.pos.y.toQ = rd.1.2.1 := congrArg (fun d : QDim => d.1.2.1) hrootdim
    have hz : root.pos.z.toQ = rd.1.2.2 := congrArg (fun d : QDim => d.1.2.2) hrootdim
    have hs : root.size.toQ = rd.2 := congrArg Prod.snd hrootdim
    have hcx : root.cube.x = root.size := rfl
    have hcy : root.cube.y = root.size := rfl
    have hcz : root.cube.z = root.size := rfl
    rw [hcx, hcy, hcz, hx, hy, hz, hs] at hiff
    exact ⟨hiff.1.1, hiff.1.2, hiff.2.1.1, hiff.2.1.2, hiff.2.2.1, hiff.2.2.2⟩
  have hfuel : maxKeyLen t < t.fuelFor + ([] : OPath).length := by
    show maxKeyLen t < maxKeyLen t + 1 + 0
    omega
  obtain ⟨rpath, i, nd2, hgo, hf2, hpt, hnone, -, hchain⟩ :=
    node_at_pos_go_spec t p rd hwf.2.2 hrpos t.fuelFor [] root.pos root.size root
      hroot hdpos hdsize hin hfuel
  refine ⟨rpath, i, nd2, ?_, hf2, hpt, hnone, ?_⟩
  · unfold node_at_pos
    rw [hroot]
    simp only [hp, if_true]
    exact hgo
  · intro q o hq
    exact hchain q o hq (Nat.zero_le _)

/-- When get_covering_node_for_entity finds nothing, the AABB does not
fit the absolute root: either the climb escaped the root without a fit,
or the descent already failed because the origin is outside the root's
half-open box (which a positive-size fit would contradict). -/
theorem covering_none_not_fit (t : OTree) (rd : QDim) (a : FVec) (s : Frc)
    (hwf : WF t rd) (hrpos : 0 < rd.2) (hs : 0 < s.toQ)
    (h : get_covering_node_for_entity t a s = none) :
    fitsAt t [] a s = false := by
  by_cases hf : fitsAt t [] a s = true
  · obtain ⟨root, hroot, hfit⟩ := (fitsAt_iff t [] a s).mp hf
    have hp : point_in_space a root.pos root.cube = true := by
      rw [point_in_space_iff]
      have hfi := (aabb_in_space_iff a s root.pos root.cube).mp hfit
      exact ⟨⟨hfi.1.1, by linarith [hfi.1.2]⟩, ⟨hfi.2.1.1, by linarith [hfi.2.1.2]⟩,
        ⟨hfi.2.2.1, by linarith [hfi.2.2.2]⟩⟩
    obtain ⟨rpath, i, nd2, hnp, -, -, -, -⟩ := node_at_pos_spec t a rd root hwf hroot hrpos hp
    unfold get_covering_node_for_entity at h
    rw [hnp] at h
    have hcl := climbRev_none t a s rpath.reverse h [] (by simp)
    rw [show (([] : OPath)).reverse = ([] : OPath) from rfl] at hcl
    rw [hf] at hcl
    exact absurd hcl (by simp)
  · exact Bool.eq_false_iff.mpr hf

theorem WF_set_octree (t : OTree) (rd : QDim) (ent : Nat) (tgt : OPath)
    (hwf : WF t rd) : WF (set_octree t ent tgt) rd := by
  refine ⟨?_, ?_, ?_⟩
  · obtain ⟨r, hr⟩ := hwf.1
    rw [find_set_octree, hr]
    exact ⟨_, rfl⟩
  · intro pr hpr q hq
    obtain ⟨e, he, hfe⟩ := List.mem_map.mp hpr
    have hkey : pr.1 = e.1 := by
      subst hfe
      by_cases hc : e.1 = tgt <;> simp [hc]
    rw [hkey] at hq
    obtain ⟨nd1, hnd1⟩ := hwf.2.1 e he q hq
    rw [find_set_octree, hnd1]
    exact ⟨_, rfl⟩
  · intro pr hpr
    obtain ⟨e, he, hfe⟩ := List.mem_map.mp hpr
    have hdp : nodeDimQ pr.2 = nodeDimQ e.2 ∧ pr.1 = e.1 := by
      subst hfe
      by_cases hc : e.1 = tgt <;> simp [hc] <;> rfl
    rw [hdp.1, hdp.2]
    exact hwf.2.2 e he

/-- Attaching an entity to a target node: every node keeps its
dimension, every other entity's memberships are untouched, the entity
is in the target node's set and in no other node's set. -/
theorem set_octree_facts (T : OTree) (rd' : QDim) (e : Nat) (fp : OPath) (fnd : NodeD)
    (hwfT : WF T rd') (hfnd : T.find fp = some fnd) :
    WF (set_octree T e fp) rd' ∧
    (∀ q nd0, T.find q = some nd0 → ∃ nd1, (set_octree T e fp).find q = some nd1 ∧
      nd1.pos = nd0.pos ∧ nd1.size = nd0.size ∧
      ∀ e2, e2 ≠ e → (e2 ∈ nd1.ents ↔ e2 ∈ nd0.ents)) ∧
    (∀ q nd1, (set_octree T e fp).find q = some nd1 → ∃ nd0, T.find q = some nd0 ∧
      nd1.pos = nd0.pos ∧ nd1.size = nd0.size ∧
      ∀ e2, e2 ≠ e → (e2 ∈ nd1.ents ↔ e2 ∈ nd0.ents)) ∧
    (∃ fnd1, (set_octree T e fp).find fp = some fnd1 ∧ e ∈ fnd1.ents ∧
      fnd1.pos = fnd.pos ∧ fnd1.size = fnd.size) ∧
    (∀ q nd1, (set_octree T e fp).find q = some nd1 → e ∈ nd1.ents → q = fp) := by
  refine ⟨WF_set_octree T rd' e fp hwfT, ?_, ?_, ?_, ?_⟩
  · intro q nd0 hq
    rw [find_set_octree, hq]
    refine ⟨_, rfl, ?_, ?_, ?_⟩
    · by_cases hc : q = fp <;> simp [hc]
    · by_cases hc : q = fp <;> simp [hc]
    · intro e2 he2
      by_cases hc : q = fp <;> simp [hc, he2]
  · intro q nd1 hq
    rw [find_set_octree] at hq
    cases hf : T.find q with
    | none =>
      rw [hf] at hq
      exact absurd hq (by simp)
    | some nd0 =>
      rw [hf] at hq
      have hnd1 : nd1 = if q = fp then { nd0 with ents := e :: nd0.ents.filter (· ≠ e) }
          else { nd0 with ents := nd0.ents.filter (· ≠ e) } := by
        simpa using hq.symm
      by_cases hc : q = fp
      · refine ⟨nd0, rfl, ?_, ?_, ?_⟩
        · rw [hnd1, if_pos hc]
        · rw [hnd1, if_pos hc]
        · intro e2 he2
          rw [hnd1, if_pos hc]
          simp [he2]
      · refine ⟨nd0, rfl, ?_, ?_, ?_⟩
        · rw [hnd1, if_neg hc]
        · rw [hnd1, if_neg hc]
        · intro e2 he2
          rw [hnd1, if_neg hc]
          simp [he2]
  · rw [find_set_octree, hfnd]
    refine ⟨_, rfl, ?_, ?_, ?_⟩
    · simp
    · simp
    · simp
  · intro q nd1 hq hmem
    by_cases hc : q = fp
    · exact hc
    · rw [find_set_octree] at hq
      cases hf : T.find q with
      | none =>
        rw [hf] at hq
        exact absurd hq (by simp)
      | some nd0 =>
        rw [hf] at hq
        have hnd1 : nd1 = if q = fp then { nd0 with ents := e :: nd0.ents.filter (· ≠ e) }
            else { nd0 with ents := nd0.ents.filter (· ≠ e) } := by
          simpa using hq.symm
        rw [hnd1, if_neg hc] at hmem
        have : e ∈ nd0.ents.filter (· ≠ e) := hmem
        rw [List.mem_filter] at this
        exact absurd this.2 (by simp)

/-- Composing the pre-attachment facts of either branch of
add_entity_to_octree with the attachment itself. -/
theorem attach_compose (t T2 : OTree) (rdX : QDim) (e : Nat) (a : FVec) (s : Frc)
    (pfx fp2 : OPath) (fnd : NodeD)
    (hwfT2 : WF T2 rdX)
    (hfnd : T2.find fp2 = some fnd)
    (hfit : aabb_in_space a s fnd.pos fnd.cube = true)
    (hfwd : ∀ q nd0, t.find q = some nd0 → T2.find (pfx ++ q) = some nd0)
    (hbwd : ∀ q nd1, T2.find q = some nd1 →
      (∃ q0, q = pfx ++ q0 ∧ t.find q0 = some nd1) ∨ nd1.ents = []) :
    WF (set_octree T2 e fp2) rdX ∧
    (∀ q nd0, t.find q = some nd0 → ∃ nd1,
      (set_octree T2 e fp2).find (pfx ++ q) = some nd1 ∧
      nd1.pos = nd0.pos ∧ nd1.size = nd0.size ∧
      ∀ e2, e2 ≠ e → (e2 ∈ nd1.ents ↔ e2 ∈ nd0.ents)) ∧
    (∀ q nd1, (set_octree T2 e fp2).find q = some nd1 → ∀ e2, e2 ≠ e → e2 ∈ nd1.ents →
      ∃ q0 nd0, q = pfx ++ q0 ∧ t.find q0 = some nd0 ∧ e2 ∈ nd0.ents) ∧
    (∃ fnd1, (set_octree T2 e fp2).find fp2 = some fnd1 ∧ e ∈ fnd1.ents ∧
      aabb_in_space a s fnd1.pos fnd1.cube = true) ∧
    (∀ q nd1, (set_octree T2 e fp2).find q = some nd1 → e ∈ nd1.ents → q = fp2) := by
  obtain ⟨hwfS, hfwdS, hbwdS, ⟨fnd1, hfnd1, hmem1, hpos1, hsz1⟩, huniq⟩ :=
    set_octree_facts T2 rdX e fp2 fnd hwfT2 hfnd
  refine ⟨hwfS, ?_, ?_, ?_, huniq⟩
  · intro q nd0 hq
    exact hfwdS (pfx ++ q) nd0 (hfwd q nd0 hq)
  · intro q nd1 hq e2 he2 hm
    obtain ⟨nd0, hnd0, _, _, hents⟩ := hbwdS q nd1 hq
    have hm0 : e2 ∈ nd0.ents := (hents e2 he2).mp hm
    rcases hbwd q nd0 hnd0 with ⟨q0, hq0, hfq0⟩ | hnil
    · exact ⟨q0, nd0, hq0, hfq0, hm0⟩
    · rw [hnil] at hm0
      exact absurd hm0 (by simp)
  · refine ⟨fnd1, hfnd1, hmem1, ?_⟩
    rw [hpos1, show fnd1.cube = fnd.cube from by unfold NodeD.cube; rw [hsz1]]
    exact hfit

/-- When the child slot computed by the extension loop is occupied but
its box fails the fit, the loop does nothing. -/
theorem stop_fit_false (t : OTree) (rd : QDim) (a : FVec) (s : Frc) (m : OPath)
    (curnd c : NodeD)
    (hwf : WF t rd) (hrpos : 0 < rd.2)
    (hfindm : t.find m = some curnd)
    (hin : inDimQ a (canonDimQ rd m))
    (hslot : t.find (m ++ [idxAt a curnd]) = some c)
    (hcfit : aabb_in_space a s c.pos c.cube = false) :
    ∀ fuel, extend_tree_inside_go a s fuel t m = (t, m) := by
  obtain ⟨bx, by', bz, hib, hidxe, hdimc⟩ :=
    child_box_data rd a m curnd (hwf.dims hfindm) hrpos hin
  have hcd := hwf.dims hslot
  have hEq : nodeDimQ (⟨FVec.add curnd.pos
      (FVec.scale ⟨Frc.ofInt bx, Frc.ofInt by', Frc.ofInt bz⟩
        (curnd.size.div (Frc.ofInt 2))), curnd.size.div (Frc.ofInt 2), [], false⟩ : NodeD)
      = nodeDimQ c := hdimc.trans hcd.symm
  have hx : (FVec.add curnd.pos (FVec.scale ⟨Frc.ofInt bx, Frc.ofInt by', Frc.ofInt bz⟩
      (curnd.size.div (Frc.ofInt 2)))).x.toQ = c.pos.x.toQ :=
    congrArg (fun d : QDim => d.1.1) hEq
  have hy : (FVec.add curnd.pos (FVec.scale ⟨Frc.ofInt bx, Frc.ofInt by', Frc.ofInt bz⟩
      (curnd.size.div (Frc.ofInt 2)))).y.toQ = c.pos.y.toQ :=
    congrArg (fun d : QDim => d.1.2.1) hEq
  have hz : (FVec.add curnd.pos (FVec.scale ⟨Frc.ofInt bx, Frc.ofInt by', Frc.ofInt bz⟩
      (curnd.size.div (Frc.ofInt 2)))).z.toQ = c.pos.z.toQ :=
    congrArg (fun d : QDim => d.1.2.2) hEq
  have hsz : (curnd.size.div (Frc.ofInt 2)).toQ = c.cube.x.toQ :=
    congrArg (fun d : QDim => d.2) hEq
  have hfail : aabb_in_space a s
      (FVec.add curnd.pos (FVec.scale ⟨Frc.ofInt bx, Frc.ofInt by', Frc.ofInt bz⟩
        (curnd.size.div (Frc.ofInt 2))))
      ⟨curnd.size.div (Frc.ofInt 2), curnd.size.div (Frc.ofInt 2),
        curnd.size.div (Frc.ofInt 2)⟩ = false := by
    rw [aabb_congr a s
      (FVec.add curnd.pos (FVec.scale ⟨Frc.ofInt bx, Frc.ofInt by', Frc.ofInt bz⟩
        (curnd.size.div (Frc.ofInt 2))))
      ⟨curnd.size.div (Frc.ofInt 2), curnd.size.div (Frc.ofInt 2),
        curnd.size.div (Frc.ofInt 2)⟩
      c.pos c.cube hx hy hz hsz hsz hsz]
    exact hcfit
  exact extend_inside_go_stop a s t m curnd bx by' bz hfindm hib hfail

/-- The initial one-node unit tree of the C2 stale-handle scenario:
the absolute root {pos (0,0,0), size 1} with an empty entity set. -/
def C2t0 : OTree := ⟨[([], ⟨FVec.ofInts 0 0 0, Frc.ofInt 1, [], false⟩)]⟩

/-- First call of the scenario, on the root handle: entity 0 with AABB
origin (1/4, 1/4, 1/4) and size 1/4, depth budgets
max_in_depth = max_out_depth = 1. -/
def C2res1 : Except OTree (OTree × OPath × OPath) :=
  add_entity_to_octree C2t0 [] 0
    ⟨⟨1, 4, by norm_num⟩, ⟨1, 4, by norm_num⟩, ⟨1, 4, by norm_num⟩⟩
    ⟨1, 4, by norm_num⟩ 1 1

/-- Second call, on the same handle (threaded through the first call's
result): entity 1 with AABB origin (-2/5, 0, 0) and size 1/10.  The
AABB lies outside the tree, so the tree grows outward and the handle
becomes an interior node. -/
def C2res2 : Except OTree (OTree × OPath × OPath) :=
  match C2res1 with
  | .error e => .error e
  | .ok (t, _, h) =>
    add_entity_to_octree t h 1
      ⟨⟨-2, 5, by norm_num⟩, Frc.ofInt 0, Frc.ofInt 0⟩
      ⟨1, 10, by norm_num⟩ 1 1

/-- Third call, still on the same (now stale) handle: entity 2 with
AABB origin (3/10, 3/10, 3/10) and size 1/5. -/
def C2res3 : Except OTree (OTree × OPath × OPath) :=
  match C2res2 with
  | .error e => .error e
  | .ok (t, _, h) =>
    add_entity_to_octree t h 2
      ⟨⟨3, 10, by norm_num⟩, ⟨3, 10, by norm_num⟩, ⟨3, 10, by norm_num⟩⟩
      ⟨1, 5, by norm_num⟩ 1 1

/-- The paths of every node of the heap whose entity set contains the
given entity. -/
def entLocs (t : OTree) (ent : Nat) : List OPath :=
  (t.nodes.filter (fun pr => pr.2.ents.contains ent)).map (·.1)

set_option maxRecDepth 100000 in
set_option maxHeartbeats 4000000 in
/-- C2: the claim's invariant fails — the source keeps the caller's
original tree handle while node_at_pos mixes that handle's dimensions
with a descent from the current absolute root.  Three successful calls
on the same handle: call 1 puts entity 0 at node [0] of the unit root;
call 2 (AABB origin (-2/5,0,0)) grows the tree outward — the old root
becomes octant 1 of the new absolute root {(-1,0,0), 2}, entity 0 now
lives at [1, 0], entity 1 at [0, 1], and the invariant still holds;
call 3 (AABB ((3/10,3/10,3/10), 1/5)) descends with the stale handle's
dimensions seeded at the new root, lands on the wrong node, climbs to
the absolute root as covering node, and the inside extension's
Octree.set at octant 1 detaches the occupied old root: afterwards
entity 0 is a member of no node's entity set in the whole heap
(entLocs of entity 0 is empty), refuting membership, unique membership
and reachability of its recorded node alike. -/
theorem C2_counterexample_stale_handle_loses_entity :
    C2res1.toOption.map (fun r => (r.2.1, r.2.2, entLocs r.1 0)) =
      some ([0], [], [[0]]) ∧
    C2res2.toOption.map (fun r => (r.2.1, r.2.2, entLocs r.1 0, entLocs r.1 1)) =
      some ([0, 1], [1], [[1, 0]], [[0, 1]]) ∧
    C2res3.toOption.map
        (fun r => (r.2.1, r.2.2, entLocs r.1 0, entLocs r.1 1, entLocs r.1 2)) =
      some ([1, 0], [1], [], [[0, 1]], [[1, 0]]) := by
  exact ⟨by decide, by decide, by decide⟩

end Oct

